import Mathlib

/-!
Verification of `composer/metrics/nlp.py` (MosaicML Composer NLP metrics).

Real-valued tensor arithmetic from the Python source is modelled over `ℚ`
(exact arithmetic); integer counters are modelled as `ℕ`.  Python strings
are modelled as `List Char`.
-/

namespace ComposerNLP

/-! ## InContextLearningCodeEvalAccuracy.estimator  (nlp.py lines 818-828) -/

/-- Embedding of `InContextLearningCodeEvalAccuracy.estimator`:
`if n - c < k: return 1.0` and otherwise
`1.0 - np.prod(1.0 - k / np.arange(n - c + 1, n + 1))`, where
`np.arange(n - c + 1, n + 1)` is the integer range `n-c+1, ..., n`. -/
def estimator (n c k : ℕ) : ℚ :=
  if n - c < k then 1
  else 1 - ∏ i in Finset.Icc (n - c + 1) n, (1 - (k : ℚ) / (i : ℚ))

/-- The running product of `estimator` matched against binomial coefficients:
multiplying by `C(n, k)` turns it into `C(n - c, k)`. -/
lemma estimator_prod_mul_choose (n k : ℕ) (hk : k ≤ n) :
    ∀ c, c ≤ n - k →
      (∏ i in Finset.Icc (n - c + 1) n, (1 - (k : ℚ) / (i : ℚ))) * (n.choose k : ℚ)
        = ((n - c).choose k : ℚ) := by
  intro c
  induction c with
  | zero =>
    intro _
    have h : Finset.Icc (n + 1) n = (∅ : Finset ℕ) := by
      apply Finset.Icc_eq_empty
      omega
    simp [h]
  | succ c ih =>
    intro hc
    have hkc : k + c + 1 ≤ n := by omega
    have hm : 1 ≤ n - c := by omega
    have hmk : k + 1 ≤ n - c := by omega
    have hidx : n - (c + 1) + 1 = n - c := by omega
    have hins : Finset.Icc (n - c) n = insert (n - c) (Finset.Icc (n - c + 1) n) := by
      ext x
      simp only [Finset.mem_Icc, Finset.mem_insert]
      omega
    have hnotmem : n - c ∉ Finset.Icc (n - c + 1) n := by
      simp [Finset.mem_Icc]
    have hmne : ((n - c : ℕ) : ℚ) ≠ 0 := by
      exact_mod_cast (Nat.cast_ne_zero (R := ℚ)).mpr (by omega)
    rw [hidx, hins, Finset.prod_insert hnotmem, mul_assoc,
      ih (by omega)]
    -- remaining goal: (1 - k / (n - c)) * C(n - c, k) = C(n - c - 1, k)
    have hchoose : (n - c - 1).choose k * (n - c) = (n - c).choose k * ((n - c) - k) := by
      have := Nat.choose_mul_succ_eq (n - c - 1) k
      have h1 : n - c - 1 + 1 = n - c := by omega
      rw [h1] at this
      exact this
    have hsub : n - (c + 1) = n - c - 1 := by omega
    have hcast : (((n - c) - k : ℕ) : ℚ) = ((n - c : ℕ) : ℚ) - (k : ℚ) := by
      have : k ≤ n - c := by omega
      push_cast [this]
      ring
    have hq : ((n - c - 1).choose k : ℚ) * ((n - c : ℕ) : ℚ)
        = ((n - c).choose k : ℚ) * (((n - c : ℕ) : ℚ) - (k : ℚ)) := by
      rw [← hcast]
      exact_mod_cast congrArg (fun x : ℕ => (x : ℚ)) hchoose
    rw [hsub]
    field_simp at hq ⊢
    linarith [hq]

/-- The set of `k`-element subsets of `range n` that hit `range c` (the passing
generations) has exactly `C(n, k) - C(n - c, k)` elements. -/
lemma hit_subsets_card (n c k : ℕ) :
    (((Finset.range n).powersetCard k).filter (fun s => ∃ x ∈ s, x < c)).card
      = n.choose k - (n - c).choose k := by
  classical
  have hmiss : ((Finset.range n).powersetCard k).filter (fun s => ¬ ∃ x ∈ s, x < c)
      = (Finset.Ico c n).powersetCard k := by
    ext s
    simp only [Finset.mem_filter, Finset.mem_powersetCard, not_exists, not_and, not_lt]
    constructor
    · rintro ⟨⟨hsub, hcard⟩, hmiss⟩
      refine ⟨?_, hcard⟩
      intro x hx
      have hxn : x ∈ Finset.range n := hsub hx
      rw [Finset.mem_range] at hxn
      rw [Finset.mem_Ico]
      exact ⟨hmiss x hx, hxn⟩
    · rintro ⟨hsub, hcard⟩
      refine ⟨⟨?_, hcard⟩, ?_⟩
      · intro x hx
        have hx2 := hsub hx
        rw [Finset.mem_Ico] at hx2
        rw [Finset.mem_range]
        exact hx2.2
      · intro x hx
        have hx2 := hsub hx
        rw [Finset.mem_Ico] at hx2
        exact hx2.1
  have htot : ((Finset.range n).powersetCard k).card = n.choose k := by
    simp [Finset.card_powersetCard]
  have hmisscard : (((Finset.range n).powersetCard k).filter (fun s => ¬ ∃ x ∈ s, x < c)).card
      = (n - c).choose k := by
    rw [hmiss]
    simp [Finset.card_powersetCard, Nat.card_Ico]
  have hsplit := Finset.filter_card_add_filter_neg_card_eq_card
    (s := (Finset.range n).powersetCard k) (p := fun s => ∃ x ∈ s, x < c)
  omega

/-- C1: for `c ≤ n` and `1 ≤ k ≤ n`, `InContextLearningCodeEvalAccuracy.estimator n c k`
equals `1 - C(n-c, k) / C(n, k)`; this value is the probability that a uniformly
random `k`-element subset of the `n` sampled generations (of which the `c`
generations `0, ..., c-1` pass all tests) contains at least one passing
generation; and whenever `n - c < k` the estimator returns exactly `1.0`. -/
theorem estimator_pass_at_k (n c k : ℕ) (hc : c ≤ n) (hk1 : 1 ≤ k) (hkn : k ≤ n) :
    estimator n c k = 1 - ((n - c).choose k : ℚ) / (n.choose k : ℚ)
    ∧ estimator n c k =
        ((((Finset.range n).powersetCard k).filter (fun s => ∃ x ∈ s, x < c)).card : ℚ)
          / (((Finset.range n).powersetCard k).card : ℚ)
    ∧ (n - c < k → estimator n c k = 1) := by
  classical
  have hchoosen : (n.choose k : ℚ) ≠ 0 := by
    have := Nat.choose_pos hkn
    exact_mod_cast (Nat.cast_ne_zero (R := ℚ)).mpr (by omega)
  have hmain : estimator n c k = 1 - ((n - c).choose k : ℚ) / (n.choose k : ℚ) := by
    by_cases h : n - c < k
    · have hz : (n - c).choose k = 0 := Nat.choose_eq_zero_of_lt h
      simp [estimator, h, hz]
    · have hck : c ≤ n - k := by omega
      have hprod := estimator_prod_mul_choose n k hkn c hck
      rw [estimator, if_neg h]
      have : (∏ i in Finset.Icc (n - c + 1) n, (1 - (k : ℚ) / (i : ℚ)))
          = ((n - c).choose k : ℚ) / (n.choose k : ℚ) := by
        field_simp
        linarith [hprod]
      rw [this]
  refine ⟨hmain, ?_, ?_⟩
  · have hle : (n - c).choose k ≤ n.choose k := Nat.choose_le_choose k (Nat.sub_le n c)
    have hcards : ((Finset.range n).powersetCard k).card = n.choose k := by
      simp [Finset.card_powersetCard]
    rw [hmain, hit_subsets_card n c k, hcards, Nat.cast_sub hle]
    field_simp
  · intro h
    simp [estimator, h]

/-- Witness for C1 at `n = 5`, `c = 2`, `k = 3`. -/
theorem estimator_pass_at_k_witness :
    estimator 5 2 3 = 1 - ((5 - 2).choose 3 : ℚ) / ((5 : ℕ).choose 3 : ℚ) :=
  (estimator_pass_at_k 5 2 3 (by norm_num) (by norm_num) (by norm_num)).1

/-! ## Shared model of torch.argmax over the last dimension -/

/-- Helper scan for `pyArgmax`: best index, best value, current index. -/
def argmaxAux (bi : ℕ) (bv : ℚ) (i : ℕ) : List ℚ → ℕ
  | [] => bi
  | x :: xs => if bv < x then argmaxAux i x (i + 1) xs else argmaxAux bi bv (i + 1) xs

/-- Model of `torch.argmax(t, dim=-1)` on one row: the index of the first
maximal element (`0` on the empty row, where torch would raise instead). -/
def pyArgmax : List ℚ → ℕ
  | [] => 0
  | x :: xs => argmaxAux 0 x 1 xs

/-! ## MaskedAccuracy  (nlp.py lines 44-84) -/

/-- State variables of `MaskedAccuracy`: both counters start at
`torch.tensor(0)` and are reduced across processes by summation. -/
structure MaskedAccuracyState where
  correct : ℕ
  total : ℕ
  deriving Repr, DecidableEq

/-- Default `MaskedAccuracy` state (`correct = total = 0`). -/
def maskedAccuracyInit : MaskedAccuracyState := ⟨0, 0⟩

/-- Embedding of `MaskedAccuracy.update(preds, target)`:
`preds = argmax(preds, dim=-1)`, `mask = (target != ignore_index)`,
`correct += sum(preds[mask] == target[mask])`, `total += mask.sum()`. -/
def maskedAccuracyUpdate (ignore_index : ℤ) (st : MaskedAccuracyState)
    (preds : List (List ℚ)) (target : List ℤ) : MaskedAccuracyState :=
  let p := preds.map pyArgmax
  { correct := st.correct +
      ((p.zip target).filter
        (fun pt => pt.2 ≠ ignore_index ∧ (pt.1 : ℤ) = pt.2)).length,
    total := st.total + (target.filter (fun t => t ≠ ignore_index)).length }

/-- Embedding of `MaskedAccuracy.compute`: `correct.float() / total`. -/
def maskedAccuracyCompute (st : MaskedAccuracyState) : ℚ :=
  (st.correct : ℚ) / (st.total : ℚ)

/-- A sequence of `MaskedAccuracy.update` calls applied in order. -/
def maskedAccuracyRun (ignore_index : ℤ) (updates : List (List (List ℚ) × List ℤ))
    (st : MaskedAccuracyState) : MaskedAccuracyState :=
  updates.foldl (fun s u => maskedAccuracyUpdate ignore_index s u.1 u.2) st

/-- Componentwise sum of `MaskedAccuracy` states (the `dist_reduce_fx='sum'`
merge of per-process states). -/
def maskedAccuracyAdd (a b : MaskedAccuracyState) : MaskedAccuracyState :=
  ⟨a.correct + b.correct, a.total + b.total⟩

lemma maskedAccuracyUpdate_incr (ig : ℤ) (st : MaskedAccuracyState)
    (preds : List (List ℚ)) (target : List ℤ) :
    maskedAccuracyUpdate ig st preds target
      = maskedAccuracyAdd st (maskedAccuracyUpdate ig maskedAccuracyInit preds target) := by
  cases st
  simp [maskedAccuracyUpdate, maskedAccuracyAdd, maskedAccuracyInit]

lemma maskedAccuracyAdd_assoc (a b c : MaskedAccuracyState) :
    maskedAccuracyAdd (maskedAccuracyAdd a b) c = maskedAccuracyAdd a (maskedAccuracyAdd b c) := by
  simp [maskedAccuracyAdd, Nat.add_assoc]

lemma maskedAccuracyRun_eq_add (ig : ℤ) (updates : List (List (List ℚ) × List ℤ)) :
    ∀ st : MaskedAccuracyState,
      maskedAccuracyRun ig updates st
        = maskedAccuracyAdd st (maskedAccuracyRun ig updates maskedAccuracyInit) := by
  induction updates with
  | nil =>
    intro st
    cases st
    simp [maskedAccuracyRun, maskedAccuracyAdd, maskedAccuracyInit]
  | cons u us ih =>
    intro st
    show maskedAccuracyRun ig us (maskedAccuracyUpdate ig st u.1 u.2) = _
    rw [ih (maskedAccuracyUpdate ig st u.1 u.2),
      maskedAccuracyUpdate_incr ig st u.1 u.2, maskedAccuracyAdd_assoc]
    congr 1
    show _ = maskedAccuracyRun ig us (maskedAccuracyUpdate ig maskedAccuracyInit u.1 u.2)
    rw [ih (maskedAccuracyUpdate ig maskedAccuracyInit u.1 u.2)]

/-- C5: after any sequence of `MaskedAccuracy.update(preds, target)` calls in
which the argmax of `preds` has the same shape as `target`, the state holds
`correct = C` and `total = T`, where `T` counts the positions (across all
updates) whose target differs from `ignore_index` and `C` counts those of them
where the argmax of `preds` equals the target, and `compute` returns `C / T`;
positions whose target equals `ignore_index` affect neither counter. -/
theorem maskedAccuracy_compute_ratio (ig : ℤ) (updates : List (List (List ℚ) × List ℤ))
    (hshape : ∀ u ∈ updates, (u.1.map pyArgmax).length = u.2.length) :
    (maskedAccuracyRun ig updates maskedAccuracyInit).correct
        = (updates.map (fun u =>
            (((u.1.map pyArgmax).zip u.2).filter
              (fun pt => pt.2 ≠ ig ∧ (pt.1 : ℤ) = pt.2)).length)).sum
    ∧ (maskedAccuracyRun ig updates maskedAccuracyInit).total
        = (updates.map (fun u => (u.2.filter (fun t => t ≠ ig)).length)).sum
    ∧ maskedAccuracyCompute (maskedAccuracyRun ig updates maskedAccuracyInit)
        = (((updates.map (fun u =>
            (((u.1.map pyArgmax).zip u.2).filter
              (fun pt => pt.2 ≠ ig ∧ (pt.1 : ℤ) = pt.2)).length)).sum : ℕ) : ℚ)
          / (((updates.map (fun u => (u.2.filter (fun t => t ≠ ig)).length)).sum : ℕ) : ℚ) := by
  clear hshape
  have hkey : ∀ (us : List (List (List ℚ) × List ℤ)),
      (maskedAccuracyRun ig us maskedAccuracyInit).correct
          = (us.map (fun u =>
              (((u.1.map pyArgmax).zip u.2).filter
                (fun pt => pt.2 ≠ ig ∧ (pt.1 : ℤ) = pt.2)).length)).sum
      ∧ (maskedAccuracyRun ig us maskedAccuracyInit).total
          = (us.map (fun u => (u.2.filter (fun t => t ≠ ig)).length)).sum := by
    intro us
    induction us with
    | nil => simp [maskedAccuracyRun, maskedAccuracyInit]
    | cons u us ih =>
      have hstep : maskedAccuracyRun ig (u :: us) maskedAccuracyInit
          = maskedAccuracyAdd (maskedAccuracyUpdate ig maskedAccuracyInit u.1 u.2)
              (maskedAccuracyRun ig us maskedAccuracyInit) := by
        show maskedAccuracyRun ig us (maskedAccuracyUpdate ig maskedAccuracyInit u.1 u.2) = _
        rw [maskedAccuracyRun_eq_add ig us]
      rw [hstep]
      constructor
      · show (maskedAccuracyUpdate ig maskedAccuracyInit u.1 u.2).correct
            + (maskedAccuracyRun ig us maskedAccuracyInit).correct = _
        rw [ih.1]
        simp [maskedAccuracyUpdate, maskedAccuracyInit]
      · show (maskedAccuracyUpdate ig maskedAccuracyInit u.1 u.2).total
            + (maskedAccuracyRun ig us maskedAccuracyInit).total = _
        rw [ih.2]
        simp [maskedAccuracyUpdate, maskedAccuracyInit]
  refine ⟨(hkey updates).1, (hkey updates).2, ?_⟩
  rw [maskedAccuracyCompute, (hkey updates).1, (hkey updates).2]

/-- Witness for C5 on a concrete two-update run with `ignore_index = -100`. -/
theorem maskedAccuracy_compute_ratio_witness :
    (maskedAccuracyRun (-100) [([[1, 3], [2, 0]], [1, -100]), ([[5, 0]], [1])]
        maskedAccuracyInit).correct
        = ([([[1, 3], [2, 0]], [1, -100]), ([[5, 0]], [1])].map
            (fun u : List (List ℚ) × List ℤ =>
              (((u.1.map pyArgmax).zip u.2).filter
                (fun pt => pt.2 ≠ (-100 : ℤ) ∧ (pt.1 : ℤ) = pt.2)).length)).sum :=
  (maskedAccuracy_compute_ratio (-100) [([[1, 3], [2, 0]], [1, -100]), ([[5, 0]], [1])]
    (by decide)).1

/-! ## InContextLearningLMAccuracy  (nlp.py lines 519-572) -/

/-- Counter state shared by the in-context-learning accuracy metrics:
`correct` and `total`, both starting at `torch.tensor(0.)` and merged across
processes with `dist_reduce_fx='sum'`. -/
structure ICLAccuracyState where
  correct : ℕ
  total : ℕ
  deriving Repr, DecidableEq

/-- Default ICL accuracy state. -/
def iclAccuracyInit : ICLAccuracyState := ⟨0, 0⟩

/-- Embedding of `compute` of the ICL accuracy metrics: `correct / total`. -/
def iclAccuracyCompute (st : ICLAccuracyState) : ℚ :=
  (st.correct : ℚ) / (st.total : ℚ)

/-- One batch element of `InContextLearningLMAccuracy.update`:
`batch['continuation_indices'][i]`, `output_logits[i]` (seq x vocab) and
`labels[i]`, bundled per sample. -/
structure LMSample where
  continuation_indices : List ℕ
  output_logits : List (List ℚ)
  labels : List ℤ

/-- Embedding of `output_logits[batch_idx].index_select(dim=0, index=cont_idx - 1).argmax(dim=-1)`
(out-of-range positions read as an empty logits row). -/
def lmContTokPred (s : LMSample) : List ℕ :=
  s.continuation_indices.map (fun i => pyArgmax (s.output_logits.getD (i - 1) []))

/-- Embedding of `labels[batch_idx].index_select(dim=0, index=cont_idx - 1)`
(out-of-range positions read as label `0`). -/
def lmContTokTarg (s : LMSample) : List ℤ :=
  s.continuation_indices.map (fun i => s.labels.getD (i - 1) (0 : ℤ))

/-- Embedding of `(cont_tok_pred == cont_tok_targ).all().int() == 1`. -/
def lmSampleCorrect (s : LMSample) : Bool :=
  ((lmContTokPred s).zip (lmContTokTarg s)).all (fun pt => (pt.1 : ℤ) = pt.2)

/-- Embedding of `InContextLearningLMAccuracy.update`: one pass over the
batch, bumping `correct` for each sample whose whole continuation matched and
`total` for every sample. -/
def lmAccuracyUpdate (st : ICLAccuracyState) (batch : List LMSample) : ICLAccuracyState :=
  batch.foldl
    (fun acc s =>
      { correct := acc.correct + (if lmSampleCorrect s then 1 else 0),
        total := acc.total + 1 })
    st

/-- A sequence of `InContextLearningLMAccuracy.update` calls applied in order. -/
def lmAccuracyRun (batches : List (List LMSample)) (st : ICLAccuracyState) : ICLAccuracyState :=
  batches.foldl lmAccuracyUpdate st

/-- Componentwise sum of ICL accuracy states (the `dist_reduce_fx='sum'`
merge of per-process states). -/
def iclAccuracyAdd (a b : ICLAccuracyState) : ICLAccuracyState :=
  ⟨a.correct + b.correct, a.total + b.total⟩

lemma lmAccuracyUpdate_incr (st : ICLAccuracyState) (batch : List LMSample) :
    lmAccuracyUpdate st batch = iclAccuracyAdd st (lmAccuracyUpdate iclAccuracyInit batch) := by
  induction batch generalizing st with
  | nil =>
    cases st
    simp [lmAccuracyUpdate, iclAccuracyAdd, iclAccuracyInit]
  | cons s ss ih =>
    show lmAccuracyUpdate ⟨st.correct + _, st.total + 1⟩ ss = _
    rw [ih]
    have h2 : lmAccuracyUpdate iclAccuracyInit (s :: ss)
        = iclAccuracyAdd ⟨(if lmSampleCorrect s then 1 else 0), 1⟩
            (lmAccuracyUpdate iclAccuracyInit ss) := by
      show lmAccuracyUpdate ⟨0 + _, 0 + 1⟩ ss = _
      rw [ih]
      simp [iclAccuracyAdd, iclAccuracyInit]
    rw [h2]
    simp [iclAccuracyAdd, Nat.add_assoc]

lemma lmAccuracyRun_eq_add (batches : List (List LMSample)) :
    ∀ st : ICLAccuracyState,
      lmAccuracyRun batches st = iclAccuracyAdd st (lmAccuracyRun batches iclAccuracyInit) := by
  induction batches with
  | nil =>
    intro st
    cases st
    simp [lmAccuracyRun, iclAccuracyAdd, iclAccuracyInit]
  | cons b bs ih =>
    intro st
    show lmAccuracyRun bs (lmAccuracyUpdate st b) = _
    rw [ih (lmAccuracyUpdate st b), lmAccuracyUpdate_incr st b]
    have hassoc : ∀ a b c : ICLAccuracyState,
        iclAccuracyAdd (iclAccuracyAdd a b) c = iclAccuracyAdd a (iclAccuracyAdd b c) := by
      intro a b c
      simp [iclAccuracyAdd, Nat.add_assoc]
    rw [hassoc]
    congr 1
    show _ = lmAccuracyRun bs (lmAccuracyUpdate iclAccuracyInit b)
    rw [ih (lmAccuracyUpdate iclAccuracyInit b)]

lemma lmAccuracyUpdate_counts (batch : List LMSample) :
    ∀ st : ICLAccuracyState,
      (lmAccuracyUpdate st batch).correct = st.correct + batch.countP lmSampleCorrect
      ∧ (lmAccuracyUpdate st batch).total = st.total + batch.length := by
  induction batch with
  | nil => intro st; simp [lmAccuracyUpdate]
  | cons s ss ih =>
    intro st
    have hstep : lmAccuracyUpdate st (s :: ss)
        = lmAccuracyUpdate ⟨st.correct + (if lmSampleCorrect s then 1 else 0), st.total + 1⟩ ss :=
      rfl
    rw [hstep]
    refine ⟨?_, ?_⟩
    · rw [(ih _).1]
      simp only [List.countP_cons]
      by_cases h : lmSampleCorrect s <;> simp [h] <;> omega
    · rw [(ih _).2]
      simp only [List.length_cons]
      omega

/-- C6: `InContextLearningLMAccuracy` scores a whole continuation per sample:
`correct` advances by exactly the number of samples whose argmax prediction
matches the label at every continuation position (positions
`continuation_indices - 1`), a sample is scored correct if and only if every
one of its continuation tokens is predicted correctly, `total` advances by one
per sample, and `compute` returns the fraction of fully-correct samples. -/
theorem lmAccuracy_scores_whole_continuation (st : ICLAccuracyState) (batch : List LMSample) :
    (lmAccuracyUpdate st batch).correct = st.correct + batch.countP lmSampleCorrect
    ∧ (lmAccuracyUpdate st batch).total = st.total + batch.length
    ∧ (∀ s : LMSample, lmSampleCorrect s = true ↔
        ∀ i ∈ s.continuation_indices,
          ((pyArgmax (s.output_logits.getD (i - 1) []) : ℤ) = s.labels.getD (i - 1) (0 : ℤ)))
    ∧ iclAccuracyCompute (lmAccuracyUpdate iclAccuracyInit batch)
        = ((batch.countP lmSampleCorrect : ℕ) : ℚ) / ((batch.length : ℕ) : ℚ) := by
  refine ⟨(lmAccuracyUpdate_counts batch st).1, (lmAccuracyUpdate_counts batch st).2, ?_, ?_⟩
  · intro s
    rw [lmSampleCorrect, lmContTokPred, lmContTokTarg, List.zip_map']
    simp [List.all_eq_true, List.mem_map]
  · rw [iclAccuracyCompute, (lmAccuracyUpdate_counts batch iclAccuracyInit).1,
      (lmAccuracyUpdate_counts batch iclAccuracyInit).2]
    simp [iclAccuracyInit]

/-! ## InContextLearningExpectedCalibrationError  (nlp.py lines 645-756) -/

/-- State variables of the ECE metrics: `bucket_totals` and `bucket_correct`,
initialized to `torch.zeros(n_buckets)` and merged by summation; only indices
below `n_buckets` are ever read or written. -/
structure EceState where
  bucket_totals : ℕ → ℚ
  bucket_correct : ℕ → ℚ

/-- Initial ECE state: all buckets zero. -/
def eceInit : EceState := ⟨fun _ => 0, fun _ => 0⟩

/-- Embedding of `InContextLearningExpectedCalibrationError.compute`:
skip empty buckets; otherwise weight the gap between the bucket accuracy and
the bucket midpoint confidence `((i+1)/n + i/n) / 2` by
`bucket_totals[i] / total_obs`. -/
def eceCompute (n_buckets : ℕ) (st : EceState) : ℚ :=
  ∑ i in Finset.range n_buckets,
    if st.bucket_totals i = 0 then 0
    else (st.bucket_totals i / ∑ j in Finset.range n_buckets, st.bucket_totals j)
      * |st.bucket_correct i / st.bucket_totals i
          - (((i : ℚ) + 1) / (n_buckets : ℚ) + (i : ℚ) / (n_buckets : ℚ)) / 2|

/-- C3: `compute` returns the population-weighted average gap between bucket
confidence (the interval midpoint `(i + 0.5) / n_buckets`) and bucket accuracy
`bucket_correct[i] / bucket_totals[i]`, summed over the buckets with
`bucket_totals[i] > 0`; empty buckets contribute nothing. -/
theorem eceCompute_weighted_confidence_gap (n : ℕ) (st : EceState)
    (hpos : ∀ i, 0 ≤ st.bucket_totals i) :
    eceCompute n st = ∑ i in Finset.range n,
      if 0 < st.bucket_totals i then
        (st.bucket_totals i / ∑ j in Finset.range n, st.bucket_totals j)
          * |st.bucket_correct i / st.bucket_totals i - ((i : ℚ) + 1 / 2) / (n : ℚ)|
      else 0 := by
  rw [eceCompute]
  refine Finset.sum_congr rfl ?_
  intro i hi
  rcases Finset.mem_range.mp hi with hin
  have hn0 : (n : ℚ) ≠ 0 := by
    exact_mod_cast (Nat.cast_ne_zero (R := ℚ)).mpr (by omega)
  by_cases h : st.bucket_totals i = 0
  · simp [h]
  · have hlt : 0 < st.bucket_totals i := lt_of_le_of_ne (hpos i) (Ne.symm h)
    rw [if_neg h, if_pos hlt]
    have hmid : (((i : ℚ) + 1) / (n : ℚ) + (i : ℚ) / (n : ℚ)) / 2
        = ((i : ℚ) + 1 / 2) / (n : ℚ) := by
      field_simp
      ring
    rw [hmid]

/-- Witness for C3 on a concrete two-bucket state. -/
theorem eceCompute_weighted_confidence_gap_witness :
    eceCompute 2 ⟨fun i => if i = 0 then 2 else 0, fun i => if i = 0 then 1 else 0⟩
      = ∑ i in Finset.range 2,
        if 0 < (fun i => if i = 0 then (2 : ℚ) else 0) i then
          ((fun i => if i = 0 then (2 : ℚ) else 0) i
              / ∑ j in Finset.range 2, (fun i => if i = 0 then (2 : ℚ) else 0) j)
            * |(fun i => if i = 0 then (1 : ℚ) else 0) i
                / (fun i => if i = 0 then (2 : ℚ) else 0) i - ((i : ℚ) + 1 / 2) / (2 : ℚ)|
        else 0 :=
  eceCompute_weighted_confidence_gap 2
    ⟨fun i => if i = 0 then 2 else 0, fun i => if i = 0 then 1 else 0⟩
    (by intro i; dsimp only; split <;> norm_num)

/-- Embedding of the shared bucketing step of the ECE `update` methods:
`bucket_idx = int(confidence * n_buckets); if bucket_idx == n_buckets:
bucket_idx -= 1` (for nonnegative confidence, Python `int()` is the floor). -/
def eceBucketIdx (n_buckets : ℕ) (confidence : ℚ) : ℕ :=
  let b := (⌊confidence * (n_buckets : ℚ)⌋).toNat
  if b = n_buckets then b - 1 else b

/-- Embedding of the two `bucket_correct[bucket_idx] += 1` (only when the
sample is scored correct) and `bucket_totals[bucket_idx] += 1` writes of the
ECE `update` methods. -/
def eceBucketUpdate (n_buckets : ℕ) (st : EceState) (confidence : ℚ) (corr : Bool) : EceState :=
  let b := eceBucketIdx n_buckets confidence
  { bucket_totals := Function.update st.bucket_totals b (st.bucket_totals b + 1),
    bucket_correct :=
      if corr then Function.update st.bucket_correct b (st.bucket_correct b + 1)
      else st.bucket_correct }

/-- Maximum of a list as `torch.max` (0 on the empty list, where torch raises). -/
def listMax : List ℚ → ℚ
  | [] => 0
  | x :: xs => xs.foldl max x

/-- Minimum of a list as `torch.min` (0 on the empty list, where torch raises). -/
def listMin : List ℚ → ℚ
  | [] => 0
  | x :: xs => xs.foldl min x

/-- Mean of a list as `torch.Tensor.mean`. -/
def listMean (l : List ℚ) : ℚ := l.sum / (l.length : ℚ)

/-- Embedding of the per-sample confidence of
`InContextLearningLMExpectedCalibrationError.update`:
`cont_tok_logits.max(dim=-1).values.min()` on the softmaxed logits.
The tensor produced by `torch.softmax` is taken as the model input
(`output_logits` of the sample), since exact softmax is not rational. -/
def lmEceConfidence (s : LMSample) : ℚ :=
  listMin (s.continuation_indices.map (fun i => listMax (s.output_logits.getD (i - 1) [])))

/-- Embedding of `InContextLearningLMExpectedCalibrationError.update`:
per sample, bucket by the min-max confidence and score the sample correct when
the whole continuation is predicted correctly. -/
def lmEceUpdate (n_buckets : ℕ) (st : EceState) (batch : List LMSample) : EceState :=
  batch.foldl
    (fun acc s => eceBucketUpdate n_buckets acc (lmEceConfidence s) (lmSampleCorrect s)) st

/-- One batch of `InContextLearningMCExpectedCalibrationError.update`:
per-choice samples (on softmaxed logits) and the
`zip(batch['choice_groupings'], batch['gold_indices'])` pairs. -/
structure MCBatch where
  samples : List LMSample
  choice_groupings : List ((ℕ × ℕ) × ℕ)

/-- Embedding of the per-choice probability of
`InContextLearningMCExpectedCalibrationError.update`:
`cont_tok_logits.index_select(dim=1, index=cont_tok_targ).diagonal().mean()`. -/
def mcChoiceProb (s : LMSample) : ℚ :=
  listMean (s.continuation_indices.map (fun i =>
    (s.output_logits.getD (i - 1) []).getD (s.labels.getD (i - 1) (0 : ℤ)).toNat 0))

/-- Embedding of `InContextLearningMCExpectedCalibrationError.update`:
per choice grouping, bucket by `max(subset) / sum(subset)` and score correct
when the first index of the maximum equals the gold index. -/
def mcEceUpdate (n_buckets : ℕ) (st : EceState) (batch : MCBatch) : EceState :=
  let probabilities := batch.samples.map mcChoiceProb
  batch.choice_groupings.foldl
    (fun acc g =>
      let subset := (probabilities.drop g.1.1).take (g.1.2 - g.1.1)
      eceBucketUpdate n_buckets acc (listMax subset / subset.sum)
        (decide (subset.indexOf (listMax subset) = g.2)))
    st

/-- The per-bucket sanity invariant: every bucket holds a nonnegative correct
count bounded by its total count. -/
def EceInv (st : EceState) : Prop :=
  ∀ i, 0 ≤ st.bucket_correct i ∧ st.bucket_correct i ≤ st.bucket_totals i

lemma eceBucketUpdate_totals_bucket (n : ℕ) (st : EceState) (conf : ℚ) (corr : Bool) :
    (eceBucketUpdate n st conf corr).bucket_totals (eceBucketIdx n conf)
      = st.bucket_totals (eceBucketIdx n conf) + 1 := by
  simp [eceBucketUpdate]

lemma eceBucketUpdate_totals_other (n : ℕ) (st : EceState) (conf : ℚ) (corr : Bool)
    (j : ℕ) (hj : j ≠ eceBucketIdx n conf) :
    (eceBucketUpdate n st conf corr).bucket_totals j = st.bucket_totals j := by
  simp [eceBucketUpdate, Function.update_noteq hj]

lemma eceBucketUpdate_correct_bucket (n : ℕ) (st : EceState) (conf : ℚ) (corr : Bool) :
    (eceBucketUpdate n st conf corr).bucket_correct (eceBucketIdx n conf)
      = st.bucket_correct (eceBucketIdx n conf) + (if corr then 1 else 0) := by
  cases corr <;> simp [eceBucketUpdate]

lemma eceBucketUpdate_correct_other (n : ℕ) (st : EceState) (conf : ℚ) (corr : Bool)
    (j : ℕ) (hj : j ≠ eceBucketIdx n conf) :
    (eceBucketUpdate n st conf corr).bucket_correct j = st.bucket_correct j := by
  cases corr <;> simp [eceBucketUpdate, Function.update_noteq hj]

lemma eceBucketUpdate_inv (n : ℕ) (st : EceState) (conf : ℚ) (corr : Bool)
    (h : EceInv st) : EceInv (eceBucketUpdate n st conf corr) := by
  intro i
  rcases h i with ⟨h0, h1⟩
  by_cases hib : i = eceBucketIdx n conf
  · subst hib
    rw [eceBucketUpdate_totals_bucket, eceBucketUpdate_correct_bucket]
    cases corr
    · simpa using ⟨h0, by linarith⟩
    · simpa using ⟨by linarith, by linarith⟩
  · rw [eceBucketUpdate_totals_other n st conf corr i hib,
      eceBucketUpdate_correct_other n st conf corr i hib]
    exact ⟨h0, h1⟩

lemma lmEceUpdate_inv (n : ℕ) (batch : List LMSample) :
    ∀ st : EceState, EceInv st → EceInv (lmEceUpdate n st batch) := by
  induction batch with
  | nil => intro st h; exact h
  | cons s ss ih =>
    intro st h
    exact ih _ (eceBucketUpdate_inv n st _ _ h)

lemma mcEceUpdate_groupings_inv (n : ℕ) (probabilities : List ℚ)
    (gs : List ((ℕ × ℕ) × ℕ)) :
    ∀ st : EceState, EceInv st →
      EceInv (gs.foldl
        (fun acc g =>
          let subset := (probabilities.drop g.1.1).take (g.1.2 - g.1.1)
          eceBucketUpdate n acc (listMax subset / subset.sum)
            (decide (subset.indexOf (listMax subset) = g.2))) st) := by
  induction gs with
  | nil => intro st h; exact h
  | cons g gs ih =>
    intro st h
    exact ih _ (eceBucketUpdate_inv n st _ _ h)

lemma mcEceUpdate_inv (n : ℕ) (st : EceState) (batch : MCBatch) (h : EceInv st) :
    EceInv (mcEceUpdate n st batch) :=
  mcEceUpdate_groupings_inv n (batch.samples.map mcChoiceProb) batch.choice_groupings st h

lemma eceBucketIdx_lt (n : ℕ) (conf : ℚ) (hn : 1 ≤ n) (h0 : 0 ≤ conf) (h1 : conf ≤ 1) :
    eceBucketIdx n conf < n := by
  have hfl : ⌊conf * (n : ℚ)⌋ ≤ n := by
    have : conf * (n : ℚ) ≤ (n : ℚ) := by
      nlinarith [Nat.cast_nonneg (α := ℚ) n]
    calc ⌊conf * (n : ℚ)⌋ ≤ ⌊(n : ℚ)⌋ := Int.floor_le_floor this
      _ = n := Int.floor_natCast n
  have hb : (⌊conf * (n : ℚ)⌋).toNat ≤ n := by omega
  simp only [eceBucketIdx]
  split
  · omega
  · omega

lemma eceBucketIdx_floor_clamp (n : ℕ) (conf : ℚ) (hn : 1 ≤ n) (h0 : 0 ≤ conf)
    (h1 : conf ≤ 1) :
    eceBucketIdx n conf
      = if conf = 1 then n - 1 else (⌊conf * (n : ℚ)⌋).toNat := by
  by_cases hc : conf = 1
  · subst hc
    have hfl : ⌊(1 : ℚ) * (n : ℚ)⌋ = (n : ℤ) := by
      rw [one_mul, Int.floor_natCast]
    simp only [eceBucketIdx, hfl, Int.toNat_natCast, if_pos rfl]
  · have hlt : conf * (n : ℚ) < (n : ℚ) := by
      have hn' : (0 : ℚ) < (n : ℚ) := by
        exact_mod_cast Nat.pos_of_ne_zero (by omega)
      have : conf < 1 := lt_of_le_of_ne h1 hc
      nlinarith
    have hfl : ⌊conf * (n : ℚ)⌋ < n := by
      have := Int.floor_le (conf * (n : ℚ))
      by_contra hcon
      push_neg at hcon
      have : ((n : ℤ) : ℚ) ≤ conf * (n : ℚ) := le_trans (by exact_mod_cast hcon) this
      rw [Int.cast_natCast] at this
      linarith
    have hne : (⌊conf * (n : ℚ)⌋).toNat ≠ n := by omega
    simp only [eceBucketIdx, if_neg hne, if_neg hc]

lemma eceCompute_mem_unit (n : ℕ) (st : EceState) (hInv : EceInv st) :
    0 ≤ eceCompute n st ∧ eceCompute n st ≤ 1 := by
  have hpos : ∀ i, 0 ≤ st.bucket_totals i := fun i => le_trans (hInv i).1 (hInv i).2
  have hSnn : 0 ≤ ∑ j in Finset.range n, st.bucket_totals j :=
    Finset.sum_nonneg (fun j _ => hpos j)
  constructor
  · apply Finset.sum_nonneg
    intro i _
    by_cases h : st.bucket_totals i = 0
    · rw [if_pos h]
    · rw [if_neg h]
      exact mul_nonneg (div_nonneg (hpos i) hSnn) (abs_nonneg _)
  · by_cases hS0 : (∑ j in Finset.range n, st.bucket_totals j) = 0
    · have hz : eceCompute n st = 0 := by
        rw [eceCompute]
        apply Finset.sum_eq_zero
        intro i hi
        have hzi : st.bucket_totals i = 0 := by
          have := (Finset.sum_eq_zero_iff_of_nonneg (fun j _ => hpos j)).mp hS0 i hi
          exact this
        rw [if_pos hzi]
      rw [hz]
      norm_num
    · have hSpos : 0 < ∑ j in Finset.range n, st.bucket_totals j :=
        lt_of_le_of_ne hSnn (Ne.symm hS0)
      have hterm : ∀ i ∈ Finset.range n,
          (if st.bucket_totals i = 0 then 0
            else (st.bucket_totals i / ∑ j in Finset.range n, st.bucket_totals j)
              * |st.bucket_correct i / st.bucket_totals i
                  - (((i : ℚ) + 1) / (n : ℚ) + (i : ℚ) / (n : ℚ)) / 2|)
            ≤ st.bucket_totals i / ∑ j in Finset.range n, st.bucket_totals j := by
        intro i hi
        have hn1 : (0 : ℚ) < (n : ℚ) := by
          have := Finset.mem_range.mp hi
          exact_mod_cast Nat.pos_of_ne_zero (by omega)
        have hwnn : 0 ≤ st.bucket_totals i / ∑ j in Finset.range n, st.bucket_totals j :=
          div_nonneg (hpos i) hSnn
        by_cases h : st.bucket_totals i = 0
        · rw [if_pos h]
          exact hwnn
        · rw [if_neg h]
          have hti : 0 < st.bucket_totals i := lt_of_le_of_ne (hpos i) (Ne.symm h)
          have hin : (i : ℚ) + 1 ≤ (n : ℚ) := by
            have := Finset.mem_range.mp hi
            exact_mod_cast Nat.succ_le_of_lt this
          have hinn : (0 : ℚ) ≤ (i : ℚ) := Nat.cast_nonneg i
          have hacc0 : 0 ≤ st.bucket_correct i / st.bucket_totals i :=
            div_nonneg (hInv i).1 (hpos i)
          have hacc1 : st.bucket_correct i / st.bucket_totals i ≤ 1 :=
            (div_le_one hti).mpr (hInv i).2
          have hmid0 : 0 ≤ (((i : ℚ) + 1) / (n : ℚ) + (i : ℚ) / (n : ℚ)) / 2 := by
            have h1 : 0 ≤ ((i : ℚ) + 1) / (n : ℚ) := div_nonneg (by linarith) (le_of_lt hn1)
            have h2 : 0 ≤ (i : ℚ) / (n : ℚ) := div_nonneg hinn (le_of_lt hn1)
            linarith
          have hmid1 : (((i : ℚ) + 1) / (n : ℚ) + (i : ℚ) / (n : ℚ)) / 2 ≤ 1 := by
            have h1 : ((i : ℚ) + 1) / (n : ℚ) ≤ 1 := (div_le_one hn1).mpr hin
            have h2 : (i : ℚ) / (n : ℚ) ≤ 1 := (div_le_one hn1).mpr (by linarith)
            linarith
          have habs : |st.bucket_correct i / st.bucket_totals i
              - (((i : ℚ) + 1) / (n : ℚ) + (i : ℚ) / (n : ℚ)) / 2| ≤ 1 := by
            rw [abs_le]
            constructor <;> linarith
          calc (st.bucket_totals i / ∑ j in Finset.range n, st.bucket_totals j)
                * |st.bucket_correct i / st.bucket_totals i
                    - (((i : ℚ) + 1) / (n : ℚ) + (i : ℚ) / (n : ℚ)) / 2|
              ≤ (st.bucket_totals i / ∑ j in Finset.range n, st.bucket_totals j) * 1 :=
                mul_le_mul_of_nonneg_left habs hwnn
            _ = st.bucket_totals i / ∑ j in Finset.range n, st.bucket_totals j := mul_one _
      calc eceCompute n st
          ≤ ∑ i in Finset.range n,
              st.bucket_totals i / ∑ j in Finset.range n, st.bucket_totals j :=
            Finset.sum_le_sum hterm
        _ = (∑ i in Finset.range n, st.bucket_totals i)
              / ∑ j in Finset.range n, st.bucket_totals j := by
            rw [Finset.sum_div]
        _ = 1 := div_self hS0

/-- C9: every ECE update preserves `0 <= bucket_correct[i] <= bucket_totals[i]`
for every bucket: a sample with confidence in `[0, 1]` lands in the single
bucket `int(confidence * n_buckets)` (clamped to `n_buckets - 1` when the
confidence is 1, and always below `n_buckets`), whose total is incremented by
one and whose correct count is incremented only when the sample is scored
correct (all other buckets are untouched); consequently `compute` always
returns a value in `[0, 1]`. -/
theorem ece_updates_preserve_bucket_invariant (n : ℕ) (hn : 1 ≤ n) :
    (∀ conf : ℚ, 0 ≤ conf → conf ≤ 1 →
        eceBucketIdx n conf < n
        ∧ eceBucketIdx n conf
            = (if conf = 1 then n - 1 else (⌊conf * (n : ℚ)⌋).toNat))
    ∧ (∀ (st : EceState) (conf : ℚ) (corr : Bool),
        (eceBucketUpdate n st conf corr).bucket_totals (eceBucketIdx n conf)
            = st.bucket_totals (eceBucketIdx n conf) + 1
        ∧ (∀ j, j ≠ eceBucketIdx n conf →
            (eceBucketUpdate n st conf corr).bucket_totals j = st.bucket_totals j)
        ∧ (eceBucketUpdate n st conf corr).bucket_correct (eceBucketIdx n conf)
            = st.bucket_correct (eceBucketIdx n conf) + (if corr then 1 else 0)
        ∧ (∀ j, j ≠ eceBucketIdx n conf →
            (eceBucketUpdate n st conf corr).bucket_correct j = st.bucket_correct j))
    ∧ (∀ (st : EceState) (batch : List LMSample),
        EceInv st → EceInv (lmEceUpdate n st batch))
    ∧ (∀ (st : EceState) (batch : MCBatch), EceInv st → EceInv (mcEceUpdate n st batch))
    ∧ (∀ st : EceState, EceInv st → 0 ≤ eceCompute n st ∧ eceCompute n st ≤ 1) :=
  ⟨fun conf h0 h1 =>
      ⟨eceBucketIdx_lt n conf hn h0 h1, eceBucketIdx_floor_clamp n conf hn h0 h1⟩,
    fun st conf corr =>
      ⟨eceBucketUpdate_totals_bucket n st conf corr,
        fun j hj => eceBucketUpdate_totals_other n st conf corr j hj,
        eceBucketUpdate_correct_bucket n st conf corr,
        fun j hj => eceBucketUpdate_correct_other n st conf corr j hj⟩,
    fun st batch h => lmEceUpdate_inv n batch st h,
    fun st batch h => mcEceUpdate_inv n st batch h,
    fun st h => eceCompute_mem_unit n st h⟩

/-- Witness for C9 with 10 buckets at confidence `7/10` and the zero state. -/
theorem ece_updates_preserve_bucket_invariant_witness :
    eceBucketIdx 10 (7 / 10) < 10
    ∧ (0 ≤ eceCompute 10 eceInit ∧ eceCompute 10 eceInit ≤ 1) :=
  ⟨(((ece_updates_preserve_bucket_invariant 10 (by norm_num)).1 (7 / 10)
      (by norm_num) (by norm_num)).1),
    (ece_updates_preserve_bucket_invariant 10 (by norm_num)).2.2.2.2 eceInit
      (fun _ => ⟨le_refl 0, le_refl 0⟩)⟩

/-! ## BinaryF1Score  (nlp.py lines 146-192) -/

/-- State variables of `BinaryF1Score`, with the names used by the source. -/
structure BinaryF1State where
  true_positive : ℕ
  false_positive : ℕ
  false_negative : ℕ
  deriving Repr, DecidableEq

/-- Initial `BinaryF1Score` state. -/
def binaryF1Init : BinaryF1State := ⟨0, 0, 0⟩

/-- Embedding of `BinaryF1Score.update(output, target)`:
`predictions = argmax(output, dim=1)`, then
`true_positive += predictions[target == 1].sum()`,
`false_positive += (predictions[target == 1] == 0).sum()`,
`false_negative += (predictions[target == 0] == 1).sum()`. -/
def binaryF1Update (st : BinaryF1State) (output : List (List ℚ)) (target : List ℤ) :
    BinaryF1State :=
  let pairs := (output.map pyArgmax).zip target
  { true_positive := st.true_positive
      + ((pairs.filter (fun pt => pt.2 = 1)).map (fun pt => pt.1)).sum,
    false_positive := st.false_positive
      + ((pairs.filter (fun pt => pt.2 = 1)).filter (fun pt => pt.1 = 0)).length,
    false_negative := st.false_negative
      + ((pairs.filter (fun pt => pt.2 = 0)).filter (fun pt => pt.1 = 1)).length }

/-- Embedding of `BinaryF1Score.compute`:
`true_positive / (true_positive + 0.5 * (false_negative + false_positive))`. -/
def binaryF1Compute (st : BinaryF1State) : ℚ :=
  (st.true_positive : ℚ)
    / ((st.true_positive : ℚ)
        + (1 / 2) * ((st.false_negative : ℚ) + (st.false_positive : ℚ)))

/-- A sequence of `BinaryF1Score.update` calls applied in order. -/
def binaryF1Run (updates : List (List (List ℚ) × List ℤ)) (st : BinaryF1State) :
    BinaryF1State :=
  updates.foldl (fun s u => binaryF1Update s u.1 u.2) st

lemma argmaxAux_lt (xs : List ℚ) :
    ∀ (bi : ℕ) (bv : ℚ) (i : ℕ), bi < i → argmaxAux bi bv i xs < i + xs.length := by
  induction xs with
  | nil =>
    intro bi bv i h
    simpa [argmaxAux] using Nat.lt_of_lt_of_le h (Nat.le_add_right i 0)
  | cons x xs ih =>
    intro bi bv i h
    rw [argmaxAux]
    by_cases hx : bv < x
    · rw [if_pos hx]
      have := ih i x (i + 1) (Nat.lt_succ_self i)
      simpa [Nat.add_assoc, Nat.add_comm, Nat.add_left_comm] using this
    · rw [if_neg hx]
      have := ih bi bv (i + 1) (Nat.lt_succ_of_lt h)
      simpa [Nat.add_assoc, Nat.add_comm, Nat.add_left_comm] using this

lemma pyArgmax_lt_length (l : List ℚ) (h : l ≠ []) : pyArgmax l < l.length := by
  match l, h with
  | x :: xs, _ =>
    show argmaxAux 0 x 1 xs < xs.length + 1
    have := argmaxAux_lt xs 0 x 1 (Nat.zero_lt_one)
    omega

lemma sum_filter_preds_eq_countP (pairs : List (ℕ × ℤ)) (h : ∀ pt ∈ pairs, pt.1 < 2) :
    ((pairs.filter (fun pt => pt.2 = 1)).map (fun pt => pt.1)).sum
      = pairs.countP (fun pt => pt.2 = 1 ∧ pt.1 = 1) := by
  induction pairs with
  | nil => rfl
  | cons p ps ih =>
    have hps : ∀ pt ∈ ps, pt.1 < 2 := fun pt hpt => h pt (List.mem_cons_of_mem p hpt)
    have hp : p.1 < 2 := h p (List.mem_cons_self p ps)
    by_cases ht : p.2 = 1
    · by_cases hone : p.1 = 1
      · simp [List.filter_cons, List.countP_cons, ht, hone, ih hps]
        omega
      · have hzero : p.1 = 0 := by omega
        simp [List.filter_cons, List.countP_cons, ht, hzero, ih hps]
    · simp [List.filter_cons, List.countP_cons, ht, ih hps]

lemma length_filter_filter_eq_countP (pairs : List (ℕ × ℤ)) (a : ℤ) (b : ℕ) :
    ((pairs.filter (fun pt => pt.2 = a)).filter (fun pt => pt.1 = b)).length
      = pairs.countP (fun pt => pt.2 = a ∧ pt.1 = b) := by
  rw [← List.countP_eq_length_filter, List.countP_filter]
  apply List.countP_congr
  intro pt _
  by_cases h1 : pt.2 = a <;> by_cases h2 : pt.1 = b <;> simp [h1, h2]

lemma binaryF1Run_counts (updates : List (List (List ℚ) × List ℤ))
    (hrows : ∀ u ∈ updates, ∀ row ∈ u.1, row.length = 2) :
    ∀ st : BinaryF1State,
      (binaryF1Run updates st).true_positive
          = st.true_positive + (updates.map (fun u =>
              ((u.1.map pyArgmax).zip u.2).countP
                (fun pt => pt.2 = 1 ∧ pt.1 = 1))).sum
      ∧ (binaryF1Run updates st).false_positive
          = st.false_positive + (updates.map (fun u =>
              ((u.1.map pyArgmax).zip u.2).countP
                (fun pt => pt.2 = 1 ∧ pt.1 = 0))).sum
      ∧ (binaryF1Run updates st).false_negative
          = st.false_negative + (updates.map (fun u =>
              ((u.1.map pyArgmax).zip u.2).countP
                (fun pt => pt.2 = 0 ∧ pt.1 = 1))).sum := by
  induction updates with
  | nil => intro st; simp [binaryF1Run]
  | cons u us ih =>
    intro st
    have hu : ∀ row ∈ u.1, row.length = 2 := hrows u (List.mem_cons_self u us)
    have hus : ∀ v ∈ us, ∀ row ∈ v.1, row.length = 2 :=
      fun v hv => hrows v (List.mem_cons_of_mem u hv)
    have hpred : ∀ pt ∈ (u.1.map pyArgmax).zip u.2, pt.1 < 2 := by
      intro pt hpt
      have h1 : pt.1 ∈ u.1.map pyArgmax := (List.mem_zip hpt).1
      rcases List.mem_map.mp h1 with ⟨row, hrow, hr⟩
      have hlen : row.length = 2 := hu row hrow
      have hne : row ≠ [] := by
        intro hcon
        rw [hcon] at hlen
        simp at hlen
      have := pyArgmax_lt_length row hne
      omega
    have hstep : binaryF1Run (u :: us) st = binaryF1Run us (binaryF1Update st u.1 u.2) := rfl
    rw [hstep]
    rcases ih hus (binaryF1Update st u.1 u.2) with ⟨h1, h2, h3⟩
    refine ⟨?_, ?_, ?_⟩
    · rw [h1]
      show st.true_positive + _ + _ = _
      rw [sum_filter_preds_eq_countP _ hpred]
      simp [Nat.add_assoc]
    · rw [h2]
      show st.false_positive + _ + _ = _
      rw [length_filter_filter_eq_countP]
      simp [Nat.add_assoc]
    · rw [h3]
      show st.false_negative + _ + _ = _
      rw [length_filter_filter_eq_countP]
      simp [Nat.add_assoc]

/-- C8: over any update sequence with two-class outputs and 0/1 targets,
the counter named `true_positive` holds TP, the counter named
`false_positive` actually holds FN (target 1, prediction 0), the counter
named `false_negative` actually holds FP (target 0, prediction 1), and
`compute` nevertheless returns the standard binary F1 score
`TP / (TP + 0.5 * (FP + FN))`, because the formula is symmetric in the two
swapped counts. -/
theorem binaryF1_compute_f1_despite_swapped_names
    (updates : List (List (List ℚ) × List ℤ))
    (hrows : ∀ u ∈ updates, ∀ row ∈ u.1, row.length = 2)
    (htargets : ∀ u ∈ updates, ∀ t ∈ u.2, t = 0 ∨ t = 1) :
    (binaryF1Run updates binaryF1Init).true_positive
        = (updates.map (fun u =>
            ((u.1.map pyArgmax).zip u.2).countP (fun pt => pt.2 = 1 ∧ pt.1 = 1))).sum
    ∧ (binaryF1Run updates binaryF1Init).false_positive
        = (updates.map (fun u =>
            ((u.1.map pyArgmax).zip u.2).countP (fun pt => pt.2 = 1 ∧ pt.1 = 0))).sum
    ∧ (binaryF1Run updates binaryF1Init).false_negative
        = (updates.map (fun u =>
            ((u.1.map pyArgmax).zip u.2).countP (fun pt => pt.2 = 0 ∧ pt.1 = 1))).sum
    ∧ binaryF1Compute (binaryF1Run updates binaryF1Init)
        = (((updates.map (fun u =>
              ((u.1.map pyArgmax).zip u.2).countP (fun pt => pt.2 = 1 ∧ pt.1 = 1))).sum : ℕ) : ℚ)
          / ((((updates.map (fun u =>
              ((u.1.map pyArgmax).zip u.2).countP (fun pt => pt.2 = 1 ∧ pt.1 = 1))).sum : ℕ) : ℚ)
            + (1 / 2) * (((((updates.map (fun u =>
                ((u.1.map pyArgmax).zip u.2).countP (fun pt => pt.2 = 0 ∧ pt.1 = 1))).sum : ℕ) : ℚ))
              + ((((updates.map (fun u =>
                ((u.1.map pyArgmax).zip u.2).countP (fun pt => pt.2 = 1 ∧ pt.1 = 0))).sum : ℕ) : ℚ)))) := by
  clear htargets
  rcases binaryF1Run_counts updates hrows binaryF1Init with ⟨h1, h2, h3⟩
  have e1 : binaryF1Init.true_positive = 0 := rfl
  have e2 : binaryF1Init.false_positive = 0 := rfl
  have e3 : binaryF1Init.false_negative = 0 := rfl
  rw [e1, Nat.zero_add] at h1
  rw [e2, Nat.zero_add] at h2
  rw [e3, Nat.zero_add] at h3
  refine ⟨h1, h2, h3, ?_⟩
  rw [binaryF1Compute, h1, h2, h3]

/-- Witness for C8 on a concrete one-update run. -/
theorem binaryF1_compute_f1_despite_swapped_names_witness :
    (binaryF1Run [([[0, 1], [1, 0], [0, 2]], [1, 0, 0])] binaryF1Init).true_positive
        = ([([[0, 1], [1, 0], [0, 2]], [1, 0, 0])].map
            (fun u : List (List ℚ) × List ℤ =>
              ((u.1.map pyArgmax).zip u.2).countP
                (fun pt => pt.2 = 1 ∧ pt.1 = 1))).sum :=
  (binaryF1_compute_f1_despite_swapped_names [([[0, 1], [1, 0], [0, 2]], [1, 0, 0])]
    (by decide) (by decide)).1

/-! ## MTBenchJudge and InContextLearningLLMAsAJudge
(nlp.py lines 377-516 and 1015-1182) -/

/-- Parse the regex fragment `\d+\.?\d*` at the head of `l`; on success return
the value that `ast.literal_eval` would read from the matched text, and the
remaining characters. -/
def scanNum (l : List Char) : Option (ℚ × List Char) :=
  let intPart := l.takeWhile Char.isDigit
  let rest := l.dropWhile Char.isDigit
  if intPart = [] then none
  else
    let intVal : ℕ := intPart.foldl (fun acc c => 10 * acc + (c.toNat - 48)) 0
    match rest with
    | '.' :: rest2 =>
      let fracPart := rest2.takeWhile Char.isDigit
      let rest3 := rest2.dropWhile Char.isDigit
      some ((intVal : ℚ)
          + ((fracPart.foldl (fun acc c => 10 * acc + (c.toNat - 48)) 0 : ℕ) : ℚ)
            / ((10 : ℚ) ^ fracPart.length), rest3)
    | _ => some ((intVal : ℚ), rest)

/-- Match of `ONE_SCORE_PATTERN` (a double-bracketed number) anchored at the
head of the text. -/
def matchScorePattern : List Char → Option ℚ
  | '[' :: '[' :: rest =>
    match scanNum rest with
    | some (v, ']' :: ']' :: _) => some v
    | _ => none
  | _ => none

/-- Match of `ONE_SCORE_PATTERN_BACKUP` (a single-bracketed number) anchored
at the head of the text. -/
def matchScoreBackup : List Char → Option ℚ
  | '[' :: rest =>
    match scanNum rest with
    | some (v, ']' :: _) => some v
    | _ => none
  | _ => none

/-- Leftmost-match search, as `re.search`: try the anchored match at every
position from the left. -/
def searchScore (m : List Char → Option ℚ) : List Char → Option ℚ
  | [] => none
  | c :: cs =>
    match m (c :: cs) with
    | some v => some v
    | none => searchScore m cs

/-- State variables of `MTBenchJudge` (all `torch.tensor(0.)`, summed across
processes). -/
structure MTBenchState where
  invalid_judge_response : ℚ
  all_scores : ℚ
  total : ℚ
  math_score : ℚ
  math_total : ℚ
  reasoning_score : ℚ
  reasoning_total : ℚ
  stem_score : ℚ
  stem_total : ℚ
  humanities_score : ℚ
  humanities_total : ℚ
  extraction_score : ℚ
  extraction_total : ℚ
  coding_score : ℚ
  coding_total : ℚ
  roleplay_score : ℚ
  roleplay_total : ℚ
  writing_score : ℚ
  writing_total : ℚ
  deriving Repr, DecidableEq

/-- Initial `MTBenchJudge` state. -/
def mtbenchInit : MTBenchState := ⟨0, 0, 0, 0, 0, 0, 0, 0, 0, 0, 0, 0, 0, 0, 0, 0, 0, 0, 0⟩

/-- Embedding of `MTBenchJudge.update_category_score`. -/
def updateCategoryScore (st : MTBenchState) (category : String) (score : ℚ) : MTBenchState :=
  if category = "math" then
    { st with math_total := st.math_total + 1, math_score := st.math_score + score }
  else if category = "writing" then
    { st with writing_total := st.writing_total + 1, writing_score := st.writing_score + score }
  else if category = "roleplay" then
    { st with roleplay_total := st.roleplay_total + 1,
              roleplay_score := st.roleplay_score + score }
  else if category = "reasoning" then
    { st with reasoning_total := st.reasoning_total + 1,
              reasoning_score := st.reasoning_score + score }
  else if category = "coding" then
    { st with coding_total := st.coding_total + 1, coding_score := st.coding_score + score }
  else if category = "extraction" then
    { st with extraction_total := st.extraction_total + 1,
              extraction_score := st.extraction_score + score }
  else if category = "stem" then
    { st with stem_total := st.stem_total + 1, stem_score := st.stem_score + score }
  else if category = "humanities" then
    { st with humanities_total := st.humanities_total + 1,
              humanities_score := st.humanities_score + score }
  else st

/-- Embedding of the per-sample body of `MTBenchJudge.update` on the judge
response `result` (the text returned by the external judge model): search
`ONE_SCORE_PATTERN`, fall back to `ONE_SCORE_PATTERN_BACKUP`, then either
accumulate the parsed score or count the response as invalid; `total` always
advances.  The model is a total function: on a malformed response the code
path executes no parse and raises nothing. -/
def mtbenchUpdateOne (st : MTBenchState) (result : List Char) (category : String) :
    MTBenchState :=
  let score :=
    match searchScore matchScorePattern result with
    | some v => some v
    | none => searchScore matchScoreBackup result
  match score with
  | some v =>
    let st2 := updateCategoryScore { st with all_scores := st.all_scores + v } category v
    { st2 with total := st2.total + 1 }
  | none =>
    { st with invalid_judge_response := st.invalid_judge_response + 1,
              total := st.total + 1 }

/-- State variables of `InContextLearningLLMAsAJudge`. -/
structure JudgeState where
  correct : ℚ
  invalid_judge_response : ℚ
  total : ℚ
  deriving Repr, DecidableEq

/-- Initial `InContextLearningLLMAsAJudge` state. -/
def judgeInit : JudgeState := ⟨0, 0, 0⟩

/-- Embedding of the per-sample body of `InContextLearningLLMAsAJudge.update`
on the judge response `result`: bump `correct` when the response ends in
`Yes`, do nothing when it ends in `No`, otherwise count it invalid; `total`
always advances. -/
def judgeUpdateOne (st : JudgeState) (result : List Char) : JudgeState :=
  let st1 :=
    if "Yes".toList.isSuffixOf result then { st with correct := st.correct + 1 }
    else if "No".toList.isSuffixOf result then st
    else { st with invalid_judge_response := st.invalid_judge_response + 1 }
  { st1 with total := st1.total + 1 }

/-- C7: a malformed judge response is silently counted as invalid.  In
`MTBenchJudge.update`, a response matching neither score pattern bumps
`invalid_judge_response` and `total` by exactly one and leaves `all_scores`
and every per-category score and total unchanged; in
`InContextLearningLLMAsAJudge.update`, a response ending in neither `Yes` nor
`No` bumps `invalid_judge_response` and `total` by one and leaves `correct`
unchanged.  Both update bodies are total functions, so no exception arises. -/
theorem malformed_judge_response_counted_invalid :
    (∀ (st : MTBenchState) (result : List Char) (category : String),
        searchScore matchScorePattern result = none →
        searchScore matchScoreBackup result = none →
        mtbenchUpdateOne st result category
          = { st with invalid_judge_response := st.invalid_judge_response + 1,
                      total := st.total + 1 })
    ∧ (∀ (st : JudgeState) (result : List Char),
        "Yes".toList.isSuffixOf result = false →
        "No".toList.isSuffixOf result = false →
        judgeUpdateOne st result
          = { st with invalid_judge_response := st.invalid_judge_response + 1,
                      total := st.total + 1 }) := by
  constructor
  · intro st result category h1 h2
    rw [mtbenchUpdateOne]
    simp only [h1, h2]
  · intro st result h1 h2
    rw [judgeUpdateOne]
    simp only [h1, h2, Bool.false_eq_true, if_false]

/-- Witness for C7 on the malformed judge responses `Rating: five` and
`Maybe`. -/
theorem malformed_judge_response_counted_invalid_witness :
    mtbenchUpdateOne mtbenchInit ("Rating: five".toList) "math"
      = { mtbenchInit with
            invalid_judge_response := mtbenchInit.invalid_judge_response + 1,
            total := mtbenchInit.total + 1 }
    ∧ judgeUpdateOne judgeInit ("Maybe".toList)
      = { judgeInit with
            invalid_judge_response := judgeInit.invalid_judge_response + 1,
            total := judgeInit.total + 1 } :=
  ⟨malformed_judge_response_counted_invalid.1 mtbenchInit ("Rating: five".toList) "math"
      (by decide) (by decide),
    malformed_judge_response_counted_invalid.2 judgeInit ("Maybe".toList)
      (by decide) (by decide)⟩

/-! ## InContextLearningQAAccuracy  (nlp.py lines 277-374)

Strings are modelled as `List Char`; the character class functions mirror
Python semantics on ASCII text. -/

/-- The character set `string.punctuation` together with the four extra
characters added by `handle_punc` (codes 123, 125, 96 and 39 are the two
braces, the backtick and the apostrophe). -/
def pyPunctuation : List Char :=
  ['!', '"', '#', '$', '%', '&', Char.ofNat 39, '(', ')', '*', '+', ',', '-', '.', '/',
   ':', ';', '<', '=', '>', '?', '@', '[', '\\', ']', '^', '_', Char.ofNat 96,
   Char.ofNat 123, '|', Char.ofNat 125, '~', '‘', '’', '´']

/-- Membership in the `handle_punc` exclusion set. -/
def isPunct (c : Char) : Bool := pyPunctuation.contains c

/-- Embedding of `replace_underscore` on one character. -/
def replaceUnderscoreChar (c : Char) : Char := if c = '_' then ' ' else c

/-- Embedding of `handle_punc` on one character. -/
def handlePuncChar (c : Char) : Char := if isPunct c then ' ' else c

/-- Python regex word characters (`\w`) on ASCII text: alphanumerics and the
underscore. -/
def isW (c : Char) : Bool := c.isAlphanum || c = '_'

/-- A trailing `\b` boundary holds when the following text starts with a
non-word character or is empty. -/
def boundary : List Char → Bool
  | [] => true
  | c :: _ => !(isW c)

/-- Anchored match of `(a|an|the)\b` (the leading `\b` is checked by the
caller): Python tries the alternatives left to right, backtracking over the
trailing boundary.  On success returns the text after the matched article. -/
def artMatch : List Char → Option (List Char)
  | [] => none
  | c :: cs =>
    if c = 'a' then
      if boundary cs then some cs
      else if cs.take 1 = ['n'] ∧ boundary (cs.drop 1) then some (cs.drop 1)
      else none
    else if c = 't' then
      if cs.take 2 = ['h', 'e'] ∧ boundary (cs.drop 2) then some (cs.drop 2)
      else none
    else none

lemma artMatch_length (l rest : List Char) (h : artMatch l = some rest) :
    rest.length < l.length := by
  cases l with
  | nil => simp [artMatch] at h
  | cons c cs =>
    simp only [artMatch] at h
    split at h
    · split at h
      · rw [Option.some.injEq] at h
        subst h
        simp
      · split at h
        · rw [Option.some.injEq] at h
          subst h
          simp only [List.length_drop, List.length_cons]
          omega
        · simp at h
    · split at h
      · split at h
        · rw [Option.some.injEq] at h
          subst h
          simp only [List.length_drop, List.length_cons]
          omega
        · simp at h
      · simp at h

/-- Fuel-indexed scanner for `re.sub(r'\b(a|an|the)\b', ' ', text)`: scan left
to right tracking whether the previous character is a word character; at each
position that follows a non-word character (or the start), replace a
whole-word article by one space and continue after it.  One unit of fuel is
spent per consumed character, so `l.length` fuel always suffices. -/
def removeArticlesFuel : ℕ → Bool → List Char → List Char
  | 0, _, l => l
  | _ + 1, _, [] => []
  | fuel + 1, prevW, c :: cs =>
    if prevW then c :: removeArticlesFuel fuel (isW c) cs
    else
      match artMatch (c :: cs) with
      | some rest => ' ' :: removeArticlesFuel fuel true rest
      | none => c :: removeArticlesFuel fuel (isW c) cs

/-- The scanner with exactly enough fuel. -/
def removeArticlesAux (prevW : Bool) (l : List Char) : List Char :=
  removeArticlesFuel l.length prevW l

lemma removeArticlesFuel_irrel :
    ∀ (fuel1 fuel2 : ℕ) (p : Bool) (l : List Char), l.length ≤ fuel1 → l.length ≤ fuel2 →
      removeArticlesFuel fuel1 p l = removeArticlesFuel fuel2 p l := by
  intro fuel1
  induction fuel1 with
  | zero =>
    intro fuel2 p l h1 _
    have : l = [] := by
      cases l
      · rfl
      · simp at h1
    subst this
    cases fuel2 <;> rfl
  | succ f ih =>
    intro fuel2 p l h1 h2
    cases l with
    | nil => cases fuel2 <;> rfl
    | cons c cs =>
      cases fuel2 with
      | zero => simp at h2
      | succ g =>
        have h1' : cs.length ≤ f := by
          simp only [List.length_cons] at h1
          omega
        have h2' : cs.length ≤ g := by
          simp only [List.length_cons] at h2
          omega
        rw [removeArticlesFuel, removeArticlesFuel]
        by_cases hp : p
        · rw [if_pos hp, if_pos hp, ih g (isW c) cs h1' h2']
        · rw [if_neg hp, if_neg hp]
          cases hart : artMatch (c :: cs) with
          | none =>
            dsimp only
            rw [ih g (isW c) cs h1' h2']
          | some rest =>
            have hlen : rest.length < cs.length + 1 := by
              have := artMatch_length (c :: cs) rest hart
              simpa using this
            dsimp only
            rw [ih g true rest (by omega) (by omega)]

/-- Scanner step when the previous character is a word character: no left
boundary there, no replacement. -/
lemma removeArticlesAux_true (c : Char) (cs : List Char) :
    removeArticlesAux true (c :: cs) = c :: removeArticlesAux (isW c) cs := rfl

/-- Scanner step at a left boundary with no article match. -/
lemma removeArticlesAux_none (c : Char) (cs : List Char) (h : artMatch (c :: cs) = none) :
    removeArticlesAux false (c :: cs) = c :: removeArticlesAux (isW c) cs := by
  show removeArticlesFuel (cs.length + 1) false (c :: cs) = _
  rw [removeArticlesFuel]
  simp only [Bool.false_eq_true, if_false, h]
  rfl

/-- Scanner step at a left boundary with an article match: emit one space and
continue after the article. -/
lemma removeArticlesAux_some (c : Char) (cs rest : List Char)
    (h : artMatch (c :: cs) = some rest) :
    removeArticlesAux false (c :: cs) = ' ' :: removeArticlesAux true rest := by
  show removeArticlesFuel (cs.length + 1) false (c :: cs) = _
  rw [removeArticlesFuel]
  simp only [Bool.false_eq_true, if_false, h]
  have hlen := artMatch_length (c :: cs) rest h
  rw [removeArticlesFuel_irrel cs.length rest.length true rest (by simp at hlen; omega) (le_refl _)]
  rfl

/-- Embedding of `remove_articles`. -/
def removeArticles (l : List Char) : List Char := removeArticlesAux false l

/-- Helper of `pySplit`: accumulate the current whitespace-free word. -/
def pySplitGo (cur : List Char) : List Char → List (List Char)
  | [] => if cur.isEmpty then [] else [cur]
  | c :: cs =>
    if c.isWhitespace then
      if cur.isEmpty then pySplitGo [] cs else cur :: pySplitGo [] cs
    else pySplitGo (cur ++ [c]) cs

/-- Embedding of Python `text.split()`: split on whitespace, dropping empty
parts. -/
def pySplit (l : List Char) : List (List Char) := pySplitGo [] l

/-- Embedding of `' '.join(words)`. -/
def joinSpace : List (List Char) → List Char
  | [] => []
  | [w] => w
  | w :: ws => w ++ ' ' :: joinSpace ws

/-- Embedding of `white_space_fix`: the single-space join of `text.split()`. -/
def whiteSpaceFix (l : List Char) : List Char := joinSpace (pySplit l)

/-- Embedding of `str.strip()`. -/
def pyStrip (l : List Char) : List Char :=
  ((l.dropWhile Char.isWhitespace).reverse.dropWhile Char.isWhitespace).reverse

/-- Embedding of `InContextLearningQAAccuracy.normalize_answer`:
`white_space_fix(remove_articles(handle_punc(lower(replace_underscore(answer))))).strip()`. -/
def normalize_answer (l : List Char) : List Char :=
  pyStrip (whiteSpaceFix (removeArticles
    (((l.map replaceUnderscoreChar).map Char.toLower).map handlePuncChar)))

/-- Embedding of `re.split('|'.join(stopping_criteria), final_answer)[0]` for
literal stopping criteria: the prefix before the leftmost position at which
any criterion matches. -/
def splitFirstAny (crits : List (List Char)) : List Char → List Char
  | [] => []
  | c :: cs =>
    if crits.any (fun p => p.isPrefixOf (c :: cs)) then []
    else c :: splitFirstAny crits cs

/-- Drop through the first occurrence of `delim` in `s`, scanning from the
left; `none` when `delim` does not occur. -/
def dropAfterFirst (delim : List Char) : List Char → Option (List Char)
  | [] => none
  | c :: cs =>
    if delim.isPrefixOf (c :: cs) then some ((c :: cs).drop delim.length)
    else dropAfterFirst delim cs

lemma dropAfterFirst_length (delim : List Char) (hd : delim ≠ []) :
    ∀ s rest, dropAfterFirst delim s = some rest → rest.length < s.length := by
  intro s
  induction s with
  | nil => intro rest h; simp [dropAfterFirst] at h
  | cons c cs ih =>
    intro rest h
    rw [dropAfterFirst] at h
    split at h
    · rw [Option.some.injEq] at h
      subst h
      have : 1 ≤ delim.length := by
        cases delim
        · exact absurd rfl hd
        · simp
      simp
      omega
    · have := ih rest h
      simp
      omega

/-- Embedding of `final_answer.split(cot_delimiter)[-1]` for a nonempty
delimiter: the suffix after the final non-overlapping occurrence found
scanning from the left (Python raises on an empty separator; the `update`
code guards on a nonempty one). -/
def splitLast (delim : List Char) (s : List Char) : List Char :=
  if hd : delim = [] then s
  else
    match h : dropAfterFirst delim s with
    | none => s
    | some rest => splitLast delim rest
termination_by s.length
decreasing_by exact dropAfterFirst_length delim hd s rest h

/-- Per-sample cleaning of `InContextLearningQAAccuracy.update`:
stopping-criteria truncation when criteria are supplied, chain-of-thought
splitting when a delimiter is supplied, then optional normalization. -/
def qaCleanAnswer (stopping_criteria : List (List Char)) (cot_delimiter : List Char)
    (do_normalization : Bool) (sample_output : List Char) : List Char :=
  let f1 := if stopping_criteria.length > 0 then splitFirstAny stopping_criteria sample_output
            else sample_output
  let f2 := if cot_delimiter.length > 0 then splitLast cot_delimiter f1 else f1
  if do_normalization then normalize_answer f2 else f2

/-- The per-sample correctness test of `InContextLearningQAAccuracy.update`:
`any(cleaned_final_answer.startswith(label) for label in cleaned_sample_labels)`. -/
def qaSampleCorrect (stopping_criteria : List (List Char)) (cot_delimiter : List Char)
    (do_normalization : Bool) (sample_output : List Char)
    (sample_labels : List (List Char)) : Bool :=
  let cleaned := qaCleanAnswer stopping_criteria cot_delimiter do_normalization sample_output
  let cleanedLabels :=
    if do_normalization then sample_labels.map normalize_answer else sample_labels
  cleanedLabels.any (fun lab => lab.isPrefixOf cleaned)

/-- Counter state of `InContextLearningQAAccuracy`. -/
structure QAState where
  correct : ℕ
  total : ℕ
  deriving Repr, DecidableEq

/-- Embedding of `InContextLearningQAAccuracy.update` over the zipped samples
`(sample_output, sample_labels)` of one batch, with the batch options fixed. -/
def qaUpdate (stopping_criteria : List (List Char)) (cot_delimiter : List Char)
    (do_normalization : Bool) (st : QAState)
    (samples : List (List Char × List (List Char))) : QAState :=
  samples.foldl
    (fun acc s =>
      { correct := acc.correct
          + (if qaSampleCorrect stopping_criteria cot_delimiter do_normalization s.1 s.2
             then 1 else 0),
        total := acc.total + 1 })
    st

/-- C2 as stated is false: with model output `yes sir` and the single answer
alias `yes` (no stopping criteria, no chain-of-thought delimiter,
normalization on), the cleaned answer equals no cleaned alias, yet `correct`
is incremented: `update` tests `startswith`, not equality. -/
theorem qa_update_exact_match_counterexample :
    (qaUpdate [] [] true ⟨0, 0⟩ [("yes sir".toList, ["yes".toList])]).correct = 1
    ∧ (qaUpdate [] [] true ⟨0, 0⟩ [("yes sir".toList, ["yes".toList])]).total = 1
    ∧ qaCleanAnswer [] [] true "yes sir".toList ∉ ["yes".toList].map normalize_answer := by
  refine ⟨by decide, by decide, ?_⟩
  decide

/-- C2 amended: `InContextLearningQAAccuracy.update` increments `correct` by
exactly one for a sample if and only if the cleaned final answer (after
optional stopping-criteria truncation, chain-of-thought delimiter splitting,
and normalization) STARTS WITH one of the cleaned answer aliases, and
increments `total` by one for every sample regardless of correctness. -/
theorem qa_update_startswith_characterization (stopping_criteria : List (List Char))
    (cot_delimiter : List Char) (do_normalization : Bool) (st : QAState)
    (samples : List (List Char × List (List Char))) :
    (qaUpdate stopping_criteria cot_delimiter do_normalization st samples).correct
        = st.correct + samples.countP
            (fun s => qaSampleCorrect stopping_criteria cot_delimiter do_normalization s.1 s.2)
    ∧ (qaUpdate stopping_criteria cot_delimiter do_normalization st samples).total
        = st.total + samples.length
    ∧ (∀ (out : List Char) (labels : List (List Char)),
        qaSampleCorrect stopping_criteria cot_delimiter do_normalization out labels = true
          ↔ ∃ lab ∈ labels,
              ((if do_normalization then normalize_answer lab else lab).isPrefixOf
                (qaCleanAnswer stopping_criteria cot_delimiter do_normalization out)) = true) := by
  refine ⟨?_, ?_, ?_⟩
  · induction samples generalizing st with
    | nil => simp [qaUpdate]
    | cons s ss ih =>
      have hstep : qaUpdate stopping_criteria cot_delimiter do_normalization st (s :: ss)
          = qaUpdate stopping_criteria cot_delimiter do_normalization
              ⟨st.correct
                + (if qaSampleCorrect stopping_criteria cot_delimiter do_normalization s.1 s.2
                   then 1 else 0), st.total + 1⟩ ss := rfl
      rw [hstep, ih]
      simp only [List.countP_cons]
      by_cases h : qaSampleCorrect stopping_criteria cot_delimiter do_normalization s.1 s.2 <;>
        simp [h] <;> omega
  · induction samples generalizing st with
    | nil => simp [qaUpdate]
    | cons s ss ih =>
      have hstep : qaUpdate stopping_criteria cot_delimiter do_normalization st (s :: ss)
          = qaUpdate stopping_criteria cot_delimiter do_normalization
              ⟨st.correct
                + (if qaSampleCorrect stopping_criteria cot_delimiter do_normalization s.1 s.2
                   then 1 else 0), st.total + 1⟩ ss := rfl
      rw [hstep, ih]
      simp only [List.length_cons]
      omega
  · intro out labels
    rw [qaSampleCorrect]
    by_cases h : do_normalization
    · subst h
      simp only [if_true, List.any_eq_true, List.mem_map]
      constructor
      · rintro ⟨lab, ⟨l0, hl0, rfl⟩, hpre⟩
        exact ⟨l0, hl0, by simpa using hpre⟩
      · rintro ⟨l0, hl0, hpre⟩
        exact ⟨normalize_answer l0, ⟨l0, hl0, rfl⟩, by simpa using hpre⟩
    · simp only [h, if_false, List.any_eq_true]
      constructor
      · rintro ⟨lab, hlab, hpre⟩
        exact ⟨lab, hlab, hpre⟩
      · rintro ⟨lab, hlab, hpre⟩
        exact ⟨lab, hlab, hpre⟩

/-! ## Distributed aggregation across every metric (C4)

Every numeric state variable registered by the metric classes of `nlp.py`
uses `dist_reduce_fx='sum'`, so merging per-process states sums each counter.
The classes not yet embedded above are modelled here: `LanguageCrossEntropy`
(lines 87-143; `LanguagePerplexity`, lines 195-201, adds no state and
inherits its `update`), `InContextLearningMultipleChoiceAccuracy` (lines
575-642), `InContextLearningCodeEvalAccuracy` (lines 759-914) and
`IFEvalJudge` (lines 917-1012).  The abstract base `InContextLearningMetric`
adds only the non-numeric `response_cache` list, which is gathered, not
summed. -/

/-- If every step of a fold adds a state-independent increment (with respect
to an associative `add` with right unit `init`), the fold from any state
splits off the fold from `init`. -/
lemma foldl_eq_add_of_incr {σ α : Type} (add : σ → σ → σ) (init : σ) (upd : σ → α → σ)
    (hassoc : ∀ a b c, add (add a b) c = add a (add b c))
    (hinit : ∀ s, add s init = s)
    (hincr : ∀ s u, upd s u = add s (upd init u)) :
    ∀ (us : List α) (s : σ), us.foldl upd s = add s (us.foldl upd init) := by
  intro us
  induction us with
  | nil => intro s; exact (hinit s).symm
  | cons u us ih =>
    intro s
    show us.foldl upd (upd s u) = _
    rw [ih (upd s u), hincr s u, hassoc]
    congr 1
    show _ = us.foldl upd (upd init u)
    rw [ih (upd init u)]

/-- Folding the update sequence `s1 ++ s2` from `init` merges the two
separate folds with `add`. -/
lemma foldl_append_eq_add {σ α : Type} (add : σ → σ → σ) (init : σ) (upd : σ → α → σ)
    (hassoc : ∀ a b c, add (add a b) c = add a (add b c))
    (hinit : ∀ s, add s init = s)
    (hincr : ∀ s u, upd s u = add s (upd init u))
    (s1 s2 : List α) :
    (s1 ++ s2).foldl upd init = add (s1.foldl upd init) (s2.foldl upd init) := by
  rw [List.foldl_append]
  exact foldl_eq_add_of_incr add init upd hassoc hinit hincr s2 (s1.foldl upd init)

lemma maskedAccuracyAdd_init (s : MaskedAccuracyState) :
    maskedAccuracyAdd s maskedAccuracyInit = s := by
  cases s
  simp [maskedAccuracyAdd, maskedAccuracyInit]

lemma iclAccuracyAdd_assoc (a b c : ICLAccuracyState) :
    iclAccuracyAdd (iclAccuracyAdd a b) c = iclAccuracyAdd a (iclAccuracyAdd b c) := by
  simp [iclAccuracyAdd, Nat.add_assoc]

lemma iclAccuracyAdd_init (s : ICLAccuracyState) : iclAccuracyAdd s iclAccuracyInit = s := by
  cases s
  simp [iclAccuracyAdd, iclAccuracyInit]

/-! ### LanguageCrossEntropy and LanguagePerplexity  (nlp.py lines 87-143, 195-201) -/

/-- Counter state of `LanguageCrossEntropy` (`LanguagePerplexity` adds no
state of its own): `sum_loss` and `total_items`, both registered with
`dist_reduce_fx='sum'`. -/
structure LCEState where
  sum_loss : ℚ
  total_items : ℕ
  deriving Repr, DecidableEq

/-- Initial `LanguageCrossEntropy` state. -/
def lceInit : LCEState := ⟨0, 0⟩

/-- Embedding of `LanguageCrossEntropy.update`: the summed cross-entropy
`losses = self.loss_fn(logits, target)` is transcendental in the logits, so
the tensor value returned by `loss_fn` for the batch is the model input
`losses`; `total_items` counts the flattened target entries that differ from
`ignore_index`. -/
def lceUpdate (ignore_index : ℤ) (st : LCEState) (losses : ℚ) (target : List ℤ) : LCEState :=
  { sum_loss := st.sum_loss + losses,
    total_items := st.total_items + (target.filter (fun t => t ≠ ignore_index)).length }

/-- Embedding of `LanguageCrossEntropy.compute`: `sum_loss / total_items`
(`LanguagePerplexity.compute` is `exp` of this value, a function of the same
state). -/
def lceCompute (st : LCEState) : ℚ := st.sum_loss / (st.total_items : ℚ)

/-- A sequence of `LanguageCrossEntropy.update` calls applied in order. -/
def lceRun (ignore_index : ℤ) (updates : List (ℚ × List ℤ)) (st : LCEState) : LCEState :=
  updates.foldl (fun s u => lceUpdate ignore_index s u.1 u.2) st

/-- Componentwise sum of `LanguageCrossEntropy` states. -/
def lceAdd (a b : LCEState) : LCEState :=
  ⟨a.sum_loss + b.sum_loss, a.total_items + b.total_items⟩

lemma lceAdd_assoc (a b c : LCEState) : lceAdd (lceAdd a b) c = lceAdd a (lceAdd b c) := by
  simp [lceAdd, add_assoc]

lemma lceAdd_init (s : LCEState) : lceAdd s lceInit = s := by
  cases s
  simp [lceAdd, lceInit]

lemma lceUpdate_incr (ig : ℤ) (st : LCEState) (losses : ℚ) (target : List ℤ) :
    lceUpdate ig st losses target = lceAdd st (lceUpdate ig lceInit losses target) := by
  cases st
  simp [lceUpdate, lceAdd, lceInit]

/-! ### BinaryF1Score and InContextLearningQAAccuracy aggregation -/

/-- Componentwise sum of `BinaryF1Score` states. -/
def binaryF1Add (a b : BinaryF1State) : BinaryF1State :=
  ⟨a.true_positive + b.true_positive, a.false_positive + b.false_positive,
    a.false_negative + b.false_negative⟩

lemma binaryF1Add_assoc (a b c : BinaryF1State) :
    binaryF1Add (binaryF1Add a b) c = binaryF1Add a (binaryF1Add b c) := by
  simp [binaryF1Add, Nat.add_assoc]

lemma binaryF1Add_init (s : BinaryF1State) : binaryF1Add s binaryF1Init = s := by
  cases s
  simp [binaryF1Add, binaryF1Init]

lemma binaryF1Update_incr (st : BinaryF1State) (output : List (List ℚ)) (target : List ℤ) :
    binaryF1Update st output target
      = binaryF1Add st (binaryF1Update binaryF1Init output target) := by
  cases st
  simp [binaryF1Update, binaryF1Add, binaryF1Init]

/-- Embedding of `InContextLearningQAAccuracy.compute`: `correct / total`. -/
def qaCompute (st : QAState) : ℚ := (st.correct : ℚ) / (st.total : ℚ)

/-- Initial `InContextLearningQAAccuracy` state. -/
def qaInit : QAState := ⟨0, 0⟩

/-- Componentwise sum of `InContextLearningQAAccuracy` states. -/
def qaAdd (a b : QAState) : QAState := ⟨a.correct + b.correct, a.total + b.total⟩

/-- One `InContextLearningQAAccuracy.update` call: the batch options together
with the zipped `(sample_output, sample_labels)` samples. -/
structure QABatch where
  stopping_criteria : List (List Char)
  cot_delimiter : List Char
  do_normalization : Bool
  samples : List (List Char × List (List Char))

/-- A sequence of `InContextLearningQAAccuracy.update` calls applied in
order, each with its own batch options. -/
def qaRun (updates : List QABatch) (st : QAState) : QAState :=
  updates.foldl
    (fun s u => qaUpdate u.stopping_criteria u.cot_delimiter u.do_normalization s u.samples) st

lemma qaAdd_assoc (a b c : QAState) : qaAdd (qaAdd a b) c = qaAdd a (qaAdd b c) := by
  simp [qaAdd, Nat.add_assoc]

lemma qaAdd_init (s : QAState) : qaAdd s qaInit = s := by
  cases s
  simp [qaAdd, qaInit]

lemma qaUpdate_incr (sc : List (List Char)) (cot : List Char) (dn : Bool) (st : QAState)
    (samples : List (List Char × List (List Char))) :
    qaUpdate sc cot dn st samples = qaAdd st (qaUpdate sc cot dn qaInit samples) := by
  show samples.foldl
      (fun acc s =>
        { correct := acc.correct + (if qaSampleCorrect sc cot dn s.1 s.2 then 1 else 0),
          total := acc.total + 1 }) st
    = qaAdd st (samples.foldl
      (fun acc s =>
        { correct := acc.correct + (if qaSampleCorrect sc cot dn s.1 s.2 then 1 else 0),
          total := acc.total + 1 }) qaInit)
  exact foldl_eq_add_of_incr qaAdd qaInit
    (fun acc s =>
      { correct := acc.correct + (if qaSampleCorrect sc cot dn s.1 s.2 then 1 else 0),
        total := acc.total + 1 })
    qaAdd_assoc qaAdd_init
    (fun s u => by cases s; simp [qaAdd, qaInit]) samples st

/-! ### InContextLearningMultipleChoiceAccuracy  (nlp.py lines 575-642) -/

/-- One batch of `InContextLearningMultipleChoiceAccuracy.update`: the
per-choice perplexities (`torch.exp(F.cross_entropy(...))` is transcendental
in the logits, so the perplexity tensor values are the model input) and the
`zip(batch['choice_groupings'], batch['gold_indices'])` pairs. -/
structure MCAccBatch where
  perplexities : List ℚ
  choice_groupings : List ((ℕ × ℕ) × ℕ)

/-- Embedding of `InContextLearningMultipleChoiceAccuracy.update`: per choice
grouping `(start, end)` with gold index, take `subset = perplexities[start:end]`,
let `idx_min = subset.index(min(subset))`, bump `correct` when `idx_min`
equals the gold index, and bump `total` for every grouping. -/
def mcAccuracyUpdate (st : ICLAccuracyState) (batch : MCAccBatch) : ICLAccuracyState :=
  batch.choice_groupings.foldl
    (fun acc g =>
      let subset := (batch.perplexities.drop g.1.1).take (g.1.2 - g.1.1)
      { correct := acc.correct + (if subset.indexOf (listMin subset) = g.2 then 1 else 0),
        total := acc.total + 1 })
    st

/-- A sequence of `InContextLearningMultipleChoiceAccuracy.update` calls
applied in order. -/
def mcAccuracyRun (batches : List MCAccBatch) (st : ICLAccuracyState) : ICLAccuracyState :=
  batches.foldl mcAccuracyUpdate st

lemma mcAccuracyUpdate_incr (st : ICLAccuracyState) (batch : MCAccBatch) :
    mcAccuracyUpdate st batch = iclAccuracyAdd st (mcAccuracyUpdate iclAccuracyInit batch) := by
  show batch.choice_groupings.foldl
      (fun acc g =>
        let subset := (batch.perplexities.drop g.1.1).take (g.1.2 - g.1.1)
        { correct := acc.correct + (if subset.indexOf (listMin subset) = g.2 then 1 else 0),
          total := acc.total + 1 }) st
    = iclAccuracyAdd st (batch.choice_groupings.foldl
      (fun acc g =>
        let subset := (batch.perplexities.drop g.1.1).take (g.1.2 - g.1.1)
        { correct := acc.correct + (if subset.indexOf (listMin subset) = g.2 then 1 else 0),
          total := acc.total + 1 }) iclAccuracyInit)
  exact foldl_eq_add_of_incr iclAccuracyAdd iclAccuracyInit
    (fun acc g =>
      let subset := (batch.perplexities.drop g.1.1).take (g.1.2 - g.1.1)
      { correct := acc.correct + (if subset.indexOf (listMin subset) = g.2 then 1 else 0),
        total := acc.total + 1 })
    iclAccuracyAdd_assoc iclAccuracyAdd_init
    (fun s u => by cases s; simp [iclAccuracyAdd, iclAccuracyInit]) batch.choice_groupings st

/-! ### InContextLearningCodeEvalAccuracy  (nlp.py lines 759-914) -/

/-- Counter state of `InContextLearningCodeEvalAccuracy`: `correct`
accumulates pass@k rates, so it is a rational. -/
structure CodeEvalState where
  correct : ℚ
  total : ℚ
  deriving Repr, DecidableEq

/-- Initial `InContextLearningCodeEvalAccuracy` state. -/
def codeEvalInit : CodeEvalState := ⟨0, 0⟩

/-- Embedding of `InContextLearningCodeEvalAccuracy.update`: `pass_at_k` and
`num_generations` come from the batch, and `results` holds, per prompt and
per generation, the per-test pass booleans returned by the eval client (the
client runs externally, so its results are the model input).  The source
bumps `total` once per prompt in its first loop and `correct` by the pass@k
estimate once per prompt in its second loop over the same prompts; the two
loops are fused here. -/
def codeEvalUpdate (pass_at_k num_generations : ℕ) (st : CodeEvalState)
    (results : List (List (List Bool))) : CodeEvalState :=
  results.foldl
    (fun acc test_result =>
      let num_correct := (test_result.filter (fun generation => generation.all id)).length
      { correct := acc.correct + estimator num_generations num_correct pass_at_k,
        total := acc.total + 1 })
    st

/-- Embedding of `InContextLearningCodeEvalAccuracy.compute`: `correct / total`. -/
def codeEvalCompute (st : CodeEvalState) : ℚ := st.correct / st.total

/-- A sequence of `InContextLearningCodeEvalAccuracy.update` calls applied in
order, each with its own `pass_at_k`, `num_generations` and client results. -/
def codeEvalRun (updates : List (ℕ × ℕ × List (List (List Bool)))) (st : CodeEvalState) :
    CodeEvalState :=
  updates.foldl (fun s u => codeEvalUpdate u.1 u.2.1 s u.2.2) st

/-- Componentwise sum of `InContextLearningCodeEvalAccuracy` states. -/
def codeEvalAdd (a b : CodeEvalState) : CodeEvalState :=
  ⟨a.correct + b.correct, a.total + b.total⟩

lemma codeEvalAdd_assoc (a b c : CodeEvalState) :
    codeEvalAdd (codeEvalAdd a b) c = codeEvalAdd a (codeEvalAdd b c) := by
  simp [codeEvalAdd, add_assoc]

lemma codeEvalAdd_init (s : CodeEvalState) : codeEvalAdd s codeEvalInit = s := by
  cases s
  simp [codeEvalAdd, codeEvalInit]

lemma codeEvalUpdate_incr (pk ng : ℕ) (st : CodeEvalState)
    (results : List (List (List Bool))) :
    codeEvalUpdate pk ng st results
      = codeEvalAdd st (codeEvalUpdate pk ng codeEvalInit results) := by
  show results.foldl
      (fun acc test_result =>
        let num_correct := (test_result.filter (fun generation => generation.all id)).length
        { correct := acc.correct + estimator ng num_correct pk,
          total := acc.total + 1 }) st
    = codeEvalAdd st (results.foldl
      (fun acc test_result =>
        let num_correct := (test_result.filter (fun generation => generation.all id)).length
        { correct := acc.correct + estimator ng num_correct pk,
          total := acc.total + 1 }) codeEvalInit)
  exact foldl_eq_add_of_incr codeEvalAdd codeEvalInit
    (fun acc test_result =>
      let num_correct := (test_result.filter (fun generation => generation.all id)).length
      { correct := acc.correct + estimator ng num_correct pk,
        total := acc.total + 1 })
    codeEvalAdd_assoc codeEvalAdd_init
    (fun s u => by cases s; simp [codeEvalAdd, codeEvalInit]) results st

/-! ### ECE aggregation  (nlp.py lines 645-756) -/

/-- Componentwise (per-bucket) sum of ECE states. -/
def eceAdd (a b : EceState) : EceState :=
  ⟨fun i => a.bucket_totals i + b.bucket_totals i,
    fun i => a.bucket_correct i + b.bucket_correct i⟩

lemma eceState_eq (a b : EceState)
    (ht : ∀ i, a.bucket_totals i = b.bucket_totals i)
    (hc : ∀ i, a.bucket_correct i = b.bucket_correct i) : a = b := by
  cases a
  cases b
  simp only [EceState.mk.injEq]
  exact ⟨funext ht, funext hc⟩

lemma eceAdd_assoc (a b c : EceState) : eceAdd (eceAdd a b) c = eceAdd a (eceAdd b c) :=
  eceState_eq _ _ (fun i => add_assoc _ _ _) (fun i => add_assoc _ _ _)

lemma eceAdd_init (s : EceState) : eceAdd s eceInit = s :=
  eceState_eq _ _ (fun i => add_zero _) (fun i => add_zero _)

lemma eceBucketUpdate_incr (n : ℕ) (st : EceState) (conf : ℚ) (corr : Bool) :
    eceBucketUpdate n st conf corr = eceAdd st (eceBucketUpdate n eceInit conf corr) := by
  refine eceState_eq _ _ ?_ ?_
  · intro i
    show (eceBucketUpdate n st conf corr).bucket_totals i
        = st.bucket_totals i + (eceBucketUpdate n eceInit conf corr).bucket_totals i
    by_cases hib : i = eceBucketIdx n conf
    · subst hib
      rw [eceBucketUpdate_totals_bucket, eceBucketUpdate_totals_bucket]
      show _ = st.bucket_totals _ + ((0 : ℚ) + 1)
      ring
    · rw [eceBucketUpdate_totals_other n st conf corr i hib,
        eceBucketUpdate_totals_other n eceInit conf corr i hib]
      show _ = st.bucket_totals i + (0 : ℚ)
      rw [add_zero]
  · intro i
    show (eceBucketUpdate n st conf corr).bucket_correct i
        = st.bucket_correct i + (eceBucketUpdate n eceInit conf corr).bucket_correct i
    by_cases hib : i = eceBucketIdx n conf
    · subst hib
      rw [eceBucketUpdate_correct_bucket, eceBucketUpdate_correct_bucket]
      show _ = st.bucket_correct _ + ((0 : ℚ) + if corr then 1 else 0)
      ring
    · rw [eceBucketUpdate_correct_other n st conf corr i hib,
        eceBucketUpdate_correct_other n eceInit conf corr i hib]
      show _ = st.bucket_correct i + (0 : ℚ)
      rw [add_zero]

lemma lmEceUpdate_incr (n : ℕ) (st : EceState) (batch : List LMSample) :
    lmEceUpdate n st batch = eceAdd st (lmEceUpdate n eceInit batch) := by
  show batch.foldl
      (fun acc s => eceBucketUpdate n acc (lmEceConfidence s) (lmSampleCorrect s)) st
    = eceAdd st (batch.foldl
      (fun acc s => eceBucketUpdate n acc (lmEceConfidence s) (lmSampleCorrect s)) eceInit)
  exact foldl_eq_add_of_incr eceAdd eceInit
    (fun acc s => eceBucketUpdate n acc (lmEceConfidence s) (lmSampleCorrect s))
    eceAdd_assoc eceAdd_init
    (fun s u => eceBucketUpdate_incr n s (lmEceConfidence u) (lmSampleCorrect u)) batch st

lemma mcEceUpdate_groupings_incr (n : ℕ) (probs : List ℚ) (gs : List ((ℕ × ℕ) × ℕ)) :
    ∀ s : EceState,
      gs.foldl
        (fun acc g =>
          let subset := (probs.drop g.1.1).take (g.1.2 - g.1.1)
          eceBucketUpdate n acc (listMax subset / subset.sum)
            (decide (subset.indexOf (listMax subset) = g.2))) s
      = eceAdd s (gs.foldl
        (fun acc g =>
          let subset := (probs.drop g.1.1).take (g.1.2 - g.1.1)
          eceBucketUpdate n acc (listMax subset / subset.sum)
            (decide (subset.indexOf (listMax subset) = g.2))) eceInit) := by
  induction gs with
  | nil => intro s; exact (eceAdd_init s).symm
  | cons g gs ih =>
    intro s
    show gs.foldl _ (eceBucketUpdate n s _ _) = _
    rw [ih, eceBucketUpdate_incr n s, eceAdd_assoc]
    congr 1
    exact (ih _).symm

lemma mcEceUpdate_incr (n : ℕ) (st : EceState) (batch : MCBatch) :
    mcEceUpdate n st batch = eceAdd st (mcEceUpdate n eceInit batch) :=
  mcEceUpdate_groupings_incr n (batch.samples.map mcChoiceProb) batch.choice_groupings st

/-- A sequence of `InContextLearningLMExpectedCalibrationError.update` calls
applied in order. -/
def lmEceRun (n_buckets : ℕ) (batches : List (List LMSample)) (st : EceState) : EceState :=
  batches.foldl (lmEceUpdate n_buckets) st

/-- A sequence of `InContextLearningMCExpectedCalibrationError.update` calls
applied in order. -/
def mcEceRun (n_buckets : ℕ) (batches : List MCBatch) (st : EceState) : EceState :=
  batches.foldl (mcEceUpdate n_buckets) st

/-! ### IFEvalJudge  (nlp.py lines 917-1012) -/

/-- Counter state of `IFEvalJudge`: prompt-level and instruction-level totals
and corrects, all registered with `dist_reduce_fx='sum'`. -/
structure IFEvalState where
  prompt_total : ℚ
  prompt_correct : ℚ
  instruction_total : ℚ
  instruction_correct : ℚ
  deriving Repr, DecidableEq

/-- Initial `IFEvalJudge` state. -/
def ifEvalInit : IFEvalState := ⟨0, 0, 0, 0⟩

/-- Embedding of `IFEvalJudge.update`: the external
`instruction_following_eval` call produces, per prompt, the per-instruction
`follow` booleans (the model input `batch_results`).  Per prompt:
`prompt_total += 1`, `prompt_correct += 1` when every instruction is
followed, `instruction_total += 1` and conditionally
`instruction_correct += 1` per instruction. -/
def ifEvalUpdate (st : IFEvalState) (batch_results : List (List Bool)) : IFEvalState :=
  batch_results.foldl
    (fun acc result =>
      { prompt_total := acc.prompt_total + 1,
        prompt_correct := acc.prompt_correct + (if result.all id then 1 else 0),
        instruction_total := acc.instruction_total + (result.length : ℚ),
        instruction_correct := acc.instruction_correct + ((result.filter id).length : ℚ) })
    st

/-- Embedding of `IFEvalJudge.compute`: the returned value is
`instruction_correct / instruction_total`. -/
def ifEvalCompute (st : IFEvalState) : ℚ := st.instruction_correct / st.instruction_total

/-- A sequence of `IFEvalJudge.update` calls applied in order. -/
def ifEvalRun (batches : List (List (List Bool))) (st : IFEvalState) : IFEvalState :=
  batches.foldl ifEvalUpdate st

/-- Componentwise sum of `IFEvalJudge` states. -/
def ifEvalAdd (a b : IFEvalState) : IFEvalState :=
  ⟨a.prompt_total + b.prompt_total, a.prompt_correct + b.prompt_correct,
    a.instruction_total + b.instruction_total, a.instruction_correct + b.instruction_correct⟩

lemma ifEvalAdd_assoc (a b c : IFEvalState) :
    ifEvalAdd (ifEvalAdd a b) c = ifEvalAdd a (ifEvalAdd b c) := by
  simp [ifEvalAdd, add_assoc]

lemma ifEvalAdd_init (s : IFEvalState) : ifEvalAdd s ifEvalInit = s := by
  cases s
  simp [ifEvalAdd, ifEvalInit]

lemma ifEvalUpdate_incr (st : IFEvalState) (batch_results : List (List Bool)) :
    ifEvalUpdate st batch_results = ifEvalAdd st (ifEvalUpdate ifEvalInit batch_results) := by
  show batch_results.foldl
      (fun acc result =>
        { prompt_total := acc.prompt_total + 1,
          prompt_correct := acc.prompt_correct + (if result.all id then 1 else 0),
          instruction_total := acc.instruction_total + (result.length : ℚ),
          instruction_correct := acc.instruction_correct + ((result.filter id).length : ℚ) }) st
    = ifEvalAdd st (batch_results.foldl
      (fun acc result =>
        { prompt_total := acc.prompt_total + 1,
          prompt_correct := acc.prompt_correct + (if result.all id then 1 else 0),
          instruction_total := acc.instruction_total + (result.length : ℚ),
          instruction_correct := acc.instruction_correct + ((result.filter id).length : ℚ) })
      ifEvalInit)
  exact foldl_eq_add_of_incr ifEvalAdd ifEvalInit
    (fun acc result =>
      { prompt_total := acc.prompt_total + 1,
        prompt_correct := acc.prompt_correct + (if result.all id then 1 else 0),
        instruction_total := acc.instruction_total + (result.length : ℚ),
        instruction_correct := acc.instruction_correct + ((result.filter id).length : ℚ) })
    ifEvalAdd_assoc ifEvalAdd_init
    (fun s u => by cases s; simp [ifEvalAdd, ifEvalInit]) batch_results st

/-! ### MTBenchJudge and InContextLearningLLMAsAJudge aggregation -/

/-- Componentwise sum of `MTBenchJudge` states. -/
def mtbenchAdd (a b : MTBenchState) : MTBenchState :=
  { invalid_judge_response := a.invalid_judge_response + b.invalid_judge_response,
    all_scores := a.all_scores + b.all_scores,
    total := a.total + b.total,
    math_score := a.math_score + b.math_score,
    math_total := a.math_total + b.math_total,
    reasoning_score := a.reasoning_score + b.reasoning_score,
    reasoning_total := a.reasoning_total + b.reasoning_total,
    stem_score := a.stem_score + b.stem_score,
    stem_total := a.stem_total + b.stem_total,
    humanities_score := a.humanities_score + b.humanities_score,
    humanities_total := a.humanities_total + b.humanities_total,
    extraction_score := a.extraction_score + b.extraction_score,
    extraction_total := a.extraction_total + b.extraction_total,
    coding_score := a.coding_score + b.coding_score,
    coding_total := a.coding_total + b.coding_total,
    roleplay_score := a.roleplay_score + b.roleplay_score,
    roleplay_total := a.roleplay_total + b.roleplay_total,
    writing_score := a.writing_score + b.writing_score,
    writing_total := a.writing_total + b.writing_total }

/-- Embedding of `MTBenchJudge.update`: one pass over the zipped
`(judge response, category)` samples of the batch. -/
def mtbenchUpdate (st : MTBenchState) (samples : List (List Char × String)) : MTBenchState :=
  samples.foldl (fun acc s => mtbenchUpdateOne acc s.1 s.2) st

/-- Embedding of `MTBenchJudge.compute`: the returned value is
`all_scores / total`. -/
def mtbenchCompute (st : MTBenchState) : ℚ := st.all_scores / st.total

/-- A sequence of `MTBenchJudge.update` calls applied in order. -/
def mtbenchRun (batches : List (List (List Char × String))) (st : MTBenchState) :
    MTBenchState :=
  batches.foldl mtbenchUpdate st

lemma mtbenchAdd_assoc (a b c : MTBenchState) :
    mtbenchAdd (mtbenchAdd a b) c = mtbenchAdd a (mtbenchAdd b c) := by
  simp [mtbenchAdd, add_assoc]

lemma mtbenchAdd_init (s : MTBenchState) : mtbenchAdd s mtbenchInit = s := by
  cases s
  simp [mtbenchAdd, mtbenchInit]

lemma updateCategoryScore_incr (st : MTBenchState) (category : String) (v : ℚ) :
    updateCategoryScore st category v
      = mtbenchAdd st (updateCategoryScore mtbenchInit category v) := by
  by_cases h1 : category = "math"
  · cases st
    simp [updateCategoryScore, h1, mtbenchAdd, mtbenchInit]
  by_cases h2 : category = "writing"
  · cases st
    simp [updateCategoryScore, h1, h2, mtbenchAdd, mtbenchInit]
  by_cases h3 : category = "roleplay"
  · cases st
    simp [updateCategoryScore, h1, h2, h3, mtbenchAdd, mtbenchInit]
  by_cases h4 : category = "reasoning"
  · cases st
    simp [updateCategoryScore, h1, h2, h3, h4, mtbenchAdd, mtbenchInit]
  by_cases h5 : category = "coding"
  · cases st
    simp [updateCategoryScore, h1, h2, h3, h4, h5, mtbenchAdd, mtbenchInit]
  by_cases h6 : category = "extraction"
  · cases st
    simp [updateCategoryScore, h1, h2, h3, h4, h5, h6, mtbenchAdd, mtbenchInit]
  by_cases h7 : category = "stem"
  · cases st
    simp [updateCategoryScore, h1, h2, h3, h4, h5, h6, h7, mtbenchAdd, mtbenchInit]
  by_cases h8 : category = "humanities"
  · cases st
    simp [updateCategoryScore, h1, h2, h3, h4, h5, h6, h7, h8, mtbenchAdd, mtbenchInit]
  cases st
  simp [updateCategoryScore, h1, h2, h3, h4, h5, h6, h7, h8, mtbenchAdd, mtbenchInit]

lemma mtbenchUpdateOne_incr (st : MTBenchState) (result : List Char) (category : String) :
    mtbenchUpdateOne st result category
      = mtbenchAdd st (mtbenchUpdateOne mtbenchInit result category) := by
  have hmain : ∀ sc : Option ℚ,
      (match sc with
        | some v =>
          { updateCategoryScore { st with all_scores := st.all_scores + v } category v with
            total :=
              (updateCategoryScore { st with all_scores := st.all_scores + v } category
                v).total + 1 }
        | none =>
          { st with invalid_judge_response := st.invalid_judge_response + 1,
                    total := st.total + 1 })
      = mtbenchAdd st
          (match sc with
            | some v =>
              { updateCategoryScore
                  { mtbenchInit with all_scores := mtbenchInit.all_scores + v } category v with
                total :=
                  (updateCategoryScore
                    { mtbenchInit with all_scores := mtbenchInit.all_scores + v } category
                    v).total + 1 }
            | none =>
              { mtbenchInit with
                  invalid_judge_response := mtbenchInit.invalid_judge_response + 1,
                  total := mtbenchInit.total + 1 }) := by
    intro sc
    cases sc with
    | none =>
      cases st
      simp [mtbenchAdd, mtbenchInit]
    | some v =>
      dsimp only
      rw [updateCategoryScore_incr { st with all_scores := st.all_scores + v } category v,
        updateCategoryScore_incr { mtbenchInit with all_scores := mtbenchInit.all_scores + v }
          category v]
      generalize updateCategoryScore mtbenchInit category v = U
      cases U
      cases st
      simp [mtbenchAdd, mtbenchInit, add_assoc]
  exact hmain _

lemma mtbenchUpdate_incr (st : MTBenchState) (samples : List (List Char × String)) :
    mtbenchUpdate st samples = mtbenchAdd st (mtbenchUpdate mtbenchInit samples) := by
  show samples.foldl (fun acc s => mtbenchUpdateOne acc s.1 s.2) st
    = mtbenchAdd st (samples.foldl (fun acc s => mtbenchUpdateOne acc s.1 s.2) mtbenchInit)
  exact foldl_eq_add_of_incr mtbenchAdd mtbenchInit
    (fun acc s => mtbenchUpdateOne acc s.1 s.2)
    mtbenchAdd_assoc mtbenchAdd_init
    (fun s u => mtbenchUpdateOne_incr s u.1 u.2) samples st

/-- Componentwise sum of `InContextLearningLLMAsAJudge` states. -/
def judgeAdd (a b : JudgeState) : JudgeState :=
  ⟨a.correct + b.correct, a.invalid_judge_response + b.invalid_judge_response,
    a.total + b.total⟩

/-- Embedding of `InContextLearningLLMAsAJudge.update`: one pass over the
judge responses obtained for the batch samples. -/
def judgeUpdate (st : JudgeState) (results : List (List Char)) : JudgeState :=
  results.foldl judgeUpdateOne st

/-- Embedding of `InContextLearningLLMAsAJudge.compute`: `correct / total`. -/
def judgeCompute (st : JudgeState) : ℚ := st.correct / st.total

/-- A sequence of `InContextLearningLLMAsAJudge.update` calls applied in
order. -/
def judgeRun (batches : List (List (List Char))) (st : JudgeState) : JudgeState :=
  batches.foldl judgeUpdate st

lemma judgeAdd_assoc (a b c : JudgeState) :
    judgeAdd (judgeAdd a b) c = judgeAdd a (judgeAdd b c) := by
  simp [judgeAdd, add_assoc]

lemma judgeAdd_init (s : JudgeState) : judgeAdd s judgeInit = s := by
  cases s
  simp [judgeAdd, judgeInit]

lemma judgeUpdateOne_incr (st : JudgeState) (result : List Char) :
    judgeUpdateOne st result = judgeAdd st (judgeUpdateOne judgeInit result) := by
  cases st
  simp only [judgeUpdateOne]
  split
  · simp [judgeAdd, judgeInit]
  · split
    · simp [judgeAdd, judgeInit]
    · simp [judgeAdd, judgeInit]

lemma judgeUpdate_incr (st : JudgeState) (results : List (List Char)) :
    judgeUpdate st results = judgeAdd st (judgeUpdate judgeInit results) := by
  show results.foldl judgeUpdateOne st
    = judgeAdd st (results.foldl judgeUpdateOne judgeInit)
  exact foldl_eq_add_of_incr judgeAdd judgeInit judgeUpdateOne
    judgeAdd_assoc judgeAdd_init judgeUpdateOne_incr results st

/-- C4: every metric in this file is distributed-aggregation safe under
per-state-variable summation.  For each of the twelve metric classes of
`nlp.py` with numeric counter state — `MaskedAccuracy`, `LanguageCrossEntropy`
(whose state and `update` `LanguagePerplexity` inherits unchanged),
`BinaryF1Score`, `InContextLearningQAAccuracy`, `InContextLearningLLMAsAJudge`,
`InContextLearningLMAccuracy`, `InContextLearningMultipleChoiceAccuracy`,
`InContextLearningLMExpectedCalibrationError`,
`InContextLearningMCExpectedCalibrationError`,
`InContextLearningCodeEvalAccuracy`, `IFEvalJudge` and `MTBenchJudge` — each
update adds an increment that depends only on its own arguments, never on the
current state; the state reached from the zero initial state by an update
sequence `s1 ++ s2` is the componentwise sum of the states reached by `s1`
alone and by `s2` alone; and calling `compute` on the summed per-process
states gives the same value as computing over all the data on one process
(for `LanguagePerplexity`, whose `compute` exponentiates the average loss,
the agreement is stated for every function of the shared state).  The
abstract base `InContextLearningMetric` adds only the non-numeric
`response_cache` list, which is gathered rather than summed. -/
theorem metric_states_sum_additive :
    (∀ (ig : ℤ) (st : MaskedAccuracyState) (preds : List (List ℚ)) (target : List ℤ),
        maskedAccuracyUpdate ig st preds target
          = maskedAccuracyAdd st (maskedAccuracyUpdate ig maskedAccuracyInit preds target))
    ∧ (∀ (ig : ℤ) (s1 s2 : List (List (List ℚ) × List ℤ)),
        maskedAccuracyRun ig (s1 ++ s2) maskedAccuracyInit
          = maskedAccuracyAdd (maskedAccuracyRun ig s1 maskedAccuracyInit)
              (maskedAccuracyRun ig s2 maskedAccuracyInit))
    ∧ (∀ (ig : ℤ) (s1 s2 : List (List (List ℚ) × List ℤ)),
        maskedAccuracyCompute
            (maskedAccuracyAdd (maskedAccuracyRun ig s1 maskedAccuracyInit)
              (maskedAccuracyRun ig s2 maskedAccuracyInit))
          = maskedAccuracyCompute (maskedAccuracyRun ig (s1 ++ s2) maskedAccuracyInit))
    ∧ (∀ (ig : ℤ) (st : LCEState) (losses : ℚ) (target : List ℤ),
        lceUpdate ig st losses target = lceAdd st (lceUpdate ig lceInit losses target))
    ∧ (∀ (ig : ℤ) (s1 s2 : List (ℚ × List ℤ)),
        lceRun ig (s1 ++ s2) lceInit
          = lceAdd (lceRun ig s1 lceInit) (lceRun ig s2 lceInit))
    ∧ (∀ (ig : ℤ) (s1 s2 : List (ℚ × List ℤ)),
        lceCompute (lceAdd (lceRun ig s1 lceInit) (lceRun ig s2 lceInit))
          = lceCompute (lceRun ig (s1 ++ s2) lceInit))
    ∧ (∀ (ig : ℤ) (s1 s2 : List (ℚ × List ℤ)) (β : Type) (f : LCEState → β),
        f (lceAdd (lceRun ig s1 lceInit) (lceRun ig s2 lceInit))
          = f (lceRun ig (s1 ++ s2) lceInit))
    ∧ (∀ (st : BinaryF1State) (output : List (List ℚ)) (target : List ℤ),
        binaryF1Update st output target
          = binaryF1Add st (binaryF1Update binaryF1Init output target))
    ∧ (∀ (s1 s2 : List (List (List ℚ) × List ℤ)),
        binaryF1Run (s1 ++ s2) binaryF1Init
          = binaryF1Add (binaryF1Run s1 binaryF1Init) (binaryF1Run s2 binaryF1Init))
    ∧ (∀ (s1 s2 : List (List (List ℚ) × List ℤ)),
        binaryF1Compute
            (binaryF1Add (binaryF1Run s1 binaryF1Init) (binaryF1Run s2 binaryF1Init))
          = binaryF1Compute (binaryF1Run (s1 ++ s2) binaryF1Init))
    ∧ (∀ (sc : List (List Char)) (cot : List Char) (dn : Bool) (st : QAState)
          (samples : List (List Char × List (List Char))),
        qaUpdate sc cot dn st samples = qaAdd st (qaUpdate sc cot dn qaInit samples))
    ∧ (∀ (s1 s2 : List QABatch),
        qaRun (s1 ++ s2) qaInit = qaAdd (qaRun s1 qaInit) (qaRun s2 qaInit))
    ∧ (∀ (s1 s2 : List QABatch),
        qaCompute (qaAdd (qaRun s1 qaInit) (qaRun s2 qaInit))
          = qaCompute (qaRun (s1 ++ s2) qaInit))
    ∧ (∀ (st : JudgeState) (results : List (List Char)),
        judgeUpdate st results = judgeAdd st (judgeUpdate judgeInit results))
    ∧ (∀ (s1 s2 : List (List (List Char))),
        judgeRun (s1 ++ s2) judgeInit
          = judgeAdd (judgeRun s1 judgeInit) (judgeRun s2 judgeInit))
    ∧ (∀ (s1 s2 : List (List (List Char))),
        judgeCompute (judgeAdd (judgeRun s1 judgeInit) (judgeRun s2 judgeInit))
          = judgeCompute (judgeRun (s1 ++ s2) judgeInit))
    ∧ (∀ (st : ICLAccuracyState) (batch : List LMSample),
        lmAccuracyUpdate st batch
          = iclAccuracyAdd st (lmAccuracyUpdate iclAccuracyInit batch))
    ∧ (∀ (b1 b2 : List (List LMSample)),
        lmAccuracyRun (b1 ++ b2) iclAccuracyInit
          = iclAccuracyAdd (lmAccuracyRun b1 iclAccuracyInit)
              (lmAccuracyRun b2 iclAccuracyInit))
    ∧ (∀ (b1 b2 : List (List LMSample)),
        iclAccuracyCompute
            (iclAccuracyAdd (lmAccuracyRun b1 iclAccuracyInit)
              (lmAccuracyRun b2 iclAccuracyInit))
          = iclAccuracyCompute (lmAccuracyRun (b1 ++ b2) iclAccuracyInit))
    ∧ (∀ (st : ICLAccuracyState) (batch : MCAccBatch),
        mcAccuracyUpdate st batch
          = iclAccuracyAdd st (mcAccuracyUpdate iclAccuracyInit batch))
    ∧ (∀ (b1 b2 : List MCAccBatch),
        mcAccuracyRun (b1 ++ b2) iclAccuracyInit
          = iclAccuracyAdd (mcAccuracyRun b1 iclAccuracyInit)
              (mcAccuracyRun b2 iclAccuracyInit))
    ∧ (∀ (b1 b2 : List MCAccBatch),
        iclAccuracyCompute
            (iclAccuracyAdd (mcAccuracyRun b1 iclAccuracyInit)
              (mcAccuracyRun b2 iclAccuracyInit))
          = iclAccuracyCompute (mcAccuracyRun (b1 ++ b2) iclAccuracyInit))
    ∧ (∀ (n : ℕ) (st : EceState) (batch : List LMSample),
        lmEceUpdate n st batch = eceAdd st (lmEceUpdate n eceInit batch))
    ∧ (∀ (n : ℕ) (b1 b2 : List (List LMSample)),
        lmEceRun n (b1 ++ b2) eceInit
          = eceAdd (lmEceRun n b1 eceInit) (lmEceRun n b2 eceInit))
    ∧ (∀ (n : ℕ) (b1 b2 : List (List LMSample)),
        eceCompute n (eceAdd (lmEceRun n b1 eceInit) (lmEceRun n b2 eceInit))
          = eceCompute n (lmEceRun n (b1 ++ b2) eceInit))
    ∧ (∀ (n : ℕ) (st : EceState) (batch : MCBatch),
        mcEceUpdate n st batch = eceAdd st (mcEceUpdate n eceInit batch))
    ∧ (∀ (n : ℕ) (b1 b2 : List MCBatch),
        mcEceRun n (b1 ++ b2) eceInit
          = eceAdd (mcEceRun n b1 eceInit) (mcEceRun n b2 eceInit))
    ∧ (∀ (n : ℕ) (b1 b2 : List MCBatch),
        eceCompute n (eceAdd (mcEceRun n b1 eceInit) (mcEceRun n b2 eceInit))
          = eceCompute n (mcEceRun n (b1 ++ b2) eceInit))
    ∧ (∀ (pk ng : ℕ) (st : CodeEvalState) (results : List (List (List Bool))),
        codeEvalUpdate pk ng st results
          = codeEvalAdd st (codeEvalUpdate pk ng codeEvalInit results))
    ∧ (∀ (s1 s2 : List (ℕ × ℕ × List (List (List Bool)))),
        codeEvalRun (s1 ++ s2) codeEvalInit
          = codeEvalAdd (codeEvalRun s1 codeEvalInit) (codeEvalRun s2 codeEvalInit))
    ∧ (∀ (s1 s2 : List (ℕ × ℕ × List (List (List Bool)))),
        codeEvalCompute
            (codeEvalAdd (codeEvalRun s1 codeEvalInit) (codeEvalRun s2 codeEvalInit))
          = codeEvalCompute (codeEvalRun (s1 ++ s2) codeEvalInit))
    ∧ (∀ (st : IFEvalState) (batch_results : List (List Bool)),
        ifEvalUpdate st batch_results = ifEvalAdd st (ifEvalUpdate ifEvalInit batch_results))
    ∧ (∀ (s1 s2 : List (List (List Bool))),
        ifEvalRun (s1 ++ s2) ifEvalInit
          = ifEvalAdd (ifEvalRun s1 ifEvalInit) (ifEvalRun s2 ifEvalInit))
    ∧ (∀ (s1 s2 : List (List (List Bool))),
        ifEvalCompute (ifEvalAdd (ifEvalRun s1 ifEvalInit) (ifEvalRun s2 ifEvalInit))
          = ifEvalCompute (ifEvalRun (s1 ++ s2) ifEvalInit))
    ∧ (∀ (st : MTBenchState) (samples : List (List Char × String)),
        mtbenchUpdate st samples = mtbenchAdd st (mtbenchUpdate mtbenchInit samples))
    ∧ (∀ (s1 s2 : List (List (List Char × String))),
        mtbenchRun (s1 ++ s2) mtbenchInit
          = mtbenchAdd (mtbenchRun s1 mtbenchInit) (mtbenchRun s2 mtbenchInit))
    ∧ (∀ (s1 s2 : List (List (List Char × String))),
        mtbenchCompute (mtbenchAdd (mtbenchRun s1 mtbenchInit) (mtbenchRun s2 mtbenchInit))
          = mtbenchCompute (mtbenchRun (s1 ++ s2) mtbenchInit)) := by
  have hmasked : ∀ (ig : ℤ) (s1 s2 : List (List (List ℚ) × List ℤ)),
      maskedAccuracyRun ig (s1 ++ s2) maskedAccuracyInit
        = maskedAccuracyAdd (maskedAccuracyRun ig s1 maskedAccuracyInit)
            (maskedAccuracyRun ig s2 maskedAccuracyInit) := by
    intro ig s1 s2
    exact foldl_append_eq_add maskedAccuracyAdd maskedAccuracyInit
      (fun s u => maskedAccuracyUpdate ig s u.1 u.2)
      maskedAccuracyAdd_assoc maskedAccuracyAdd_init
      (fun s u => maskedAccuracyUpdate_incr ig s u.1 u.2) s1 s2
  have hlce : ∀ (ig : ℤ) (s1 s2 : List (ℚ × List ℤ)),
      lceRun ig (s1 ++ s2) lceInit
        = lceAdd (lceRun ig s1 lceInit) (lceRun ig s2 lceInit) := by
    intro ig s1 s2
    exact foldl_append_eq_add lceAdd lceInit (fun s u => lceUpdate ig s u.1 u.2)
      lceAdd_assoc lceAdd_init (fun s u => lceUpdate_incr ig s u.1 u.2) s1 s2
  have hbf1 : ∀ (s1 s2 : List (List (List ℚ) × List ℤ)),
      binaryF1Run (s1 ++ s2) binaryF1Init
        = binaryF1Add (binaryF1Run s1 binaryF1Init) (binaryF1Run s2 binaryF1Init) := by
    intro s1 s2
    exact foldl_append_eq_add binaryF1Add binaryF1Init
      (fun s u => binaryF1Update s u.1 u.2)
      binaryF1Add_assoc binaryF1Add_init
      (fun s u => binaryF1Update_incr s u.1 u.2) s1 s2
  have hqa : ∀ (s1 s2 : List QABatch),
      qaRun (s1 ++ s2) qaInit = qaAdd (qaRun s1 qaInit) (qaRun s2 qaInit) := by
    intro s1 s2
    exact foldl_append_eq_add qaAdd qaInit
      (fun s u => qaUpdate u.stopping_criteria u.cot_delimiter u.do_normalization s u.samples)
      qaAdd_assoc qaAdd_init
      (fun s u => qaUpdate_incr u.stopping_criteria u.cot_delimiter u.do_normalization
        s u.samples) s1 s2
  have hjudge : ∀ (s1 s2 : List (List (List Char))),
      judgeRun (s1 ++ s2) judgeInit
        = judgeAdd (judgeRun s1 judgeInit) (judgeRun s2 judgeInit) := by
    intro s1 s2
    exact foldl_append_eq_add judgeAdd judgeInit judgeUpdate
      judgeAdd_assoc judgeAdd_init judgeUpdate_incr s1 s2
  have hlm : ∀ (b1 b2 : List (List LMSample)),
      lmAccuracyRun (b1 ++ b2) iclAccuracyInit
        = iclAccuracyAdd (lmAccuracyRun b1 iclAccuracyInit)
            (lmAccuracyRun b2 iclAccuracyInit) := by
    intro b1 b2
    exact foldl_append_eq_add iclAccuracyAdd iclAccuracyInit lmAccuracyUpdate
      iclAccuracyAdd_assoc iclAccuracyAdd_init lmAccuracyUpdate_incr b1 b2
  have hmc : ∀ (b1 b2 : List MCAccBatch),
      mcAccuracyRun (b1 ++ b2) iclAccuracyInit
        = iclAccuracyAdd (mcAccuracyRun b1 iclAccuracyInit)
            (mcAccuracyRun b2 iclAccuracyInit) := by
    intro b1 b2
    exact foldl_append_eq_add iclAccuracyAdd iclAccuracyInit mcAccuracyUpdate
      iclAccuracyAdd_assoc iclAccuracyAdd_init mcAccuracyUpdate_incr b1 b2
  have hlmece : ∀ (n : ℕ) (b1 b2 : List (List LMSample)),
      lmEceRun n (b1 ++ b2) eceInit
        = eceAdd (lmEceRun n b1 eceInit) (lmEceRun n b2 eceInit) := by
    intro n b1 b2
    exact foldl_append_eq_add eceAdd eceInit (lmEceUpdate n)
      eceAdd_assoc eceAdd_init (lmEceUpdate_incr n) b1 b2
  have hmcece : ∀ (n : ℕ) (b1 b2 : List MCBatch),
      mcEceRun n (b1 ++ b2) eceInit
        = eceAdd (mcEceRun n b1 eceInit) (mcEceRun n b2 eceInit) := by
    intro n b1 b2
    exact foldl_append_eq_add eceAdd eceInit (mcEceUpdate n)
      eceAdd_assoc eceAdd_init (mcEceUpdate_incr n) b1 b2
  have hce : ∀ (s1 s2 : List (ℕ × ℕ × List (List (List Bool)))),
      codeEvalRun (s1 ++ s2) codeEvalInit
        = codeEvalAdd (codeEvalRun s1 codeEvalInit) (codeEvalRun s2 codeEvalInit) := by
    intro s1 s2
    exact foldl_append_eq_add codeEvalAdd codeEvalInit
      (fun s u => codeEvalUpdate u.1 u.2.1 s u.2.2)
      codeEvalAdd_assoc codeEvalAdd_init
      (fun s u => codeEvalUpdate_incr u.1 u.2.1 s u.2.2) s1 s2
  have hif : ∀ (s1 s2 : List (List (List Bool))),
      ifEvalRun (s1 ++ s2) ifEvalInit
        = ifEvalAdd (ifEvalRun s1 ifEvalInit) (ifEvalRun s2 ifEvalInit) := by
    intro s1 s2
    exact foldl_append_eq_add ifEvalAdd ifEvalInit ifEvalUpdate
      ifEvalAdd_assoc ifEvalAdd_init ifEvalUpdate_incr s1 s2
  have hmt : ∀ (s1 s2 : List (List (List Char × String))),
      mtbenchRun (s1 ++ s2) mtbenchInit
        = mtbenchAdd (mtbenchRun s1 mtbenchInit) (mtbenchRun s2 mtbenchInit) := by
    intro s1 s2
    exact foldl_append_eq_add mtbenchAdd mtbenchInit mtbenchUpdate
      mtbenchAdd_assoc mtbenchAdd_init mtbenchUpdate_incr s1 s2
  exact ⟨maskedAccuracyUpdate_incr, hmasked, fun ig s1 s2 => by rw [hmasked ig s1 s2],
    lceUpdate_incr, hlce, fun ig s1 s2 => by rw [hlce ig s1 s2],
    fun ig s1 s2 β f => by rw [hlce ig s1 s2],
    binaryF1Update_incr, hbf1, fun s1 s2 => by rw [hbf1 s1 s2],
    qaUpdate_incr, hqa, fun s1 s2 => by rw [hqa s1 s2],
    judgeUpdate_incr, hjudge, fun s1 s2 => by rw [hjudge s1 s2],
    lmAccuracyUpdate_incr, hlm, fun b1 b2 => by rw [hlm b1 b2],
    mcAccuracyUpdate_incr, hmc, fun b1 b2 => by rw [hmc b1 b2],
    lmEceUpdate_incr, hlmece, fun n b1 b2 => by rw [hlmece n b1 b2],
    mcEceUpdate_incr, hmcece, fun n b1 b2 => by rw [hmcece n b1 b2],
    codeEvalUpdate_incr, hce, fun s1 s2 => by rw [hce s1 s2],
    ifEvalUpdate_incr, hif, fun s1 s2 => by rw [hif s1 s2],
    mtbenchUpdate_incr, hmt, fun s1 s2 => by rw [hmt s1 s2]⟩

/-! ## Idempotence of `normalize_answer` (C10)

The proof characterizes the strings in the image of `normalize_answer`:
single-space-joined nonempty words whose characters are lowercase-stable
non-punctuation non-whitespace, with no whole-word article anywhere.  Each
pipeline stage is then the identity on such strings. -/

lemma char_toNat_ofNat_valid (n : ℕ) (h : n.isValidChar) : (Char.ofNat n).toNat = n := by
  rw [Char.ofNat, dif_pos h]
  rfl

lemma toLower_eq (c : Char) :
    Char.toLower c = if c.toNat ≥ 65 ∧ c.toNat ≤ 90 then Char.ofNat (c.toNat + 32) else c :=
  rfl

lemma toLower_toLower (c : Char) : Char.toLower (Char.toLower c) = Char.toLower c := by
  by_cases h : c.toNat ≥ 65 ∧ c.toNat ≤ 90
  · have h1 : Char.toLower c = Char.ofNat (c.toNat + 32) := by
      rw [toLower_eq, if_pos h]
    have h2 : (Char.toLower c).toNat = c.toNat + 32 := by
      rw [h1, char_toNat_ofNat_valid _ (Or.inl (by omega))]
    rw [toLower_eq (Char.toLower c), if_neg (by rw [h2]; omega)]
  · have h1 : Char.toLower c = c := by
      rw [toLower_eq, if_neg h]
    rw [toLower_eq (Char.toLower c), h1, if_neg h]

/-- The normal form of a character after the three `map` stages: stable under
lowercasing and not punctuation (the latter also rules out the underscore). -/
def CharNorm (c : Char) : Prop := Char.toLower c = c ∧ isPunct c = false

lemma charNorm_space : CharNorm ' ' := by
  constructor
  · rfl
  · decide

lemma charNorm_stage (c : Char) :
    CharNorm (handlePuncChar (Char.toLower (replaceUnderscoreChar c))) := by
  rw [handlePuncChar]
  by_cases hp : isPunct (Char.toLower (replaceUnderscoreChar c))
  · rw [if_pos hp]
    exact charNorm_space
  · rw [if_neg hp]
    exact ⟨toLower_toLower _, by simpa using hp⟩

lemma charNorm_not_underscore {c : Char} (h : CharNorm c) : c ≠ '_' := by
  intro hc
  subst hc
  have : isPunct '_' = true := by decide
  rw [h.2] at this
  simp at this

/-- Position-wise check that `re.sub(r'\b(a|an|the)\b', ...)` matches nowhere
in the text, scanning with the wordness of the previous character. -/
def artFree : Bool → List Char → Bool
  | _, [] => true
  | prevW, c :: cs => (prevW || (artMatch (c :: cs)).isNone) && artFree (isW c) cs

lemma artFree_mono {l : List Char} (h : artFree false l = true) (p : Bool) :
    artFree p l = true := by
  cases l with
  | nil => rfl
  | cons c cs =>
    rw [artFree] at h ⊢
    rw [Bool.and_eq_true] at h ⊢
    refine ⟨?_, h.2⟩
    rcases Bool.or_eq_true_iff.mp h.1 with h1 | h1
    · simp at h1
    · simp [h1]

lemma artFree_removeArticlesAux_id :
    ∀ (l : List Char) (p : Bool), artFree p l = true → removeArticlesAux p l = l := by
  intro l
  induction l with
  | nil => intro p _; rfl
  | cons c cs ih =>
    intro p h
    rw [artFree, Bool.and_eq_true] at h
    by_cases hp : p
    · subst hp
      rw [removeArticlesAux_true, ih (isW c) h.2]
    · rw [Bool.not_eq_true] at hp
      subst hp
      have hnone : artMatch (c :: cs) = none := by
        rcases Bool.or_eq_true_iff.mp h.1 with h1 | h1
        · simp at h1
        · exact Option.isNone_iff_eq_none.mp h1
      rw [removeArticlesAux_none c cs hnone, ih (isW c) h.2]

lemma artMatch_not_at {c : Char} (ha : c ≠ 'a') (ht : c ≠ 't') (cs : List Char) :
    artMatch (c :: cs) = none := by
  simp only [artMatch]
  rw [if_neg ha, if_neg ht]

lemma isW_a : isW 'a' = true := by decide

lemma isW_t : isW 't' = true := by decide

lemma artMatch_not_word {c : Char} (h : isW c = false) (cs : List Char) :
    artMatch (c :: cs) = none := by
  apply artMatch_not_at
  · intro hc
    subst hc
    exact absurd h (by decide)
  · intro hc
    subst hc
    exact absurd h (by decide)

lemma artMatch_some_boundary {l rest : List Char} (h : artMatch l = some rest) :
    boundary rest = true := by
  cases l with
  | nil => simp [artMatch] at h
  | cons c cs =>
    simp only [artMatch] at h
    split at h
    · split at h
      · rename_i hb
        rw [Option.some.injEq] at h
        subst h
        exact hb
      · split at h
        · rename_i hb
          rw [Option.some.injEq] at h
          subst h
          exact hb.2
        · simp at h
    · split at h
      · split at h
        · rename_i hb
          rw [Option.some.injEq] at h
          subst h
          exact hb.2
        · simp at h
      · simp at h

lemma boundary_cons (c : Char) (z : List Char) : boundary (c :: z) = !isW c := rfl

lemma artMatch_cons (c : Char) (cs : List Char) :
    artMatch (c :: cs)
      = if c = 'a' then
          (if boundary cs then some cs
           else if cs.take 1 = ['n'] ∧ boundary (cs.drop 1) then some (cs.drop 1)
           else none)
        else if c = 't' then
          (if cs.take 2 = ['h', 'e'] ∧ boundary (cs.drop 2) then some (cs.drop 2) else none)
        else none := rfl

/-- Whatever follows a non-word character does not change whether the article
regex matches at a given position. -/
lemma artMatch_append_nonword (u : List Char) {d : Char} (hd : isW d = false)
    (y : List Char) :
    (artMatch (u ++ d :: y)).isNone = (artMatch u).isNone := by
  have hbd : ∀ z : List Char, boundary (d :: z) = true := by
    intro z
    rw [boundary_cons, hd]
    rfl
  have hdh : d ≠ 'h' := fun hc => by subst hc; exact absurd hd (by decide)
  have hde : d ≠ 'e' := fun hc => by subst hc; exact absurd hd (by decide)
  match u with
  | [] =>
    rw [List.nil_append, artMatch_not_word hd y]
    rfl
  | [c1] =>
    rw [List.cons_append, List.nil_append]
    by_cases hca : c1 = 'a'
    · subst hca
      have h1 : artMatch ('a' :: d :: y) = some (d :: y) := by
        rw [artMatch_cons, if_pos rfl, if_pos (hbd y)]
      have h2 : artMatch ['a'] = some [] := by decide
      rw [h1, h2]
      rfl
    · by_cases hct : c1 = 't'
      · subst hct
        have h1 : artMatch ('t' :: d :: y) = none := by
          rw [artMatch_cons, if_neg (by decide), if_pos rfl, if_neg ?hc]
          case hc =>
            rintro ⟨htake, _⟩
            cases y with
            | nil => simp at htake
            | cons y0 ys =>
              simp only [List.take_succ_cons, List.take_zero] at htake
              rw [List.cons.injEq] at htake
              exact hdh htake.1
        have h2 : artMatch ['t'] = none := by decide
        rw [h1, h2]
      · rw [artMatch_not_at hca hct, artMatch_not_at hca hct]
  | [c1, c2] =>
    rw [List.cons_append, List.cons_append, List.nil_append]
    by_cases hca : c1 = 'a'
    · subst hca
      by_cases hw2 : isW c2
      · have hbf : boundary (c2 :: d :: y) = false := by rw [boundary_cons, hw2]; rfl
        have hbf' : boundary [c2] = false := by rw [boundary_cons, hw2]; rfl
        by_cases hcn : c2 = 'n'
        · subst hcn
          have h1 : artMatch ('a' :: 'n' :: d :: y) = some (d :: y) := by
            rw [artMatch_cons, if_pos rfl, if_neg (by rw [hbf]; simp),
              if_pos ⟨by simp, by simpa using hbd y⟩]
            simp
          have h2 : artMatch ['a', 'n'] = some [] := by decide
          rw [h1, h2]
          rfl
        · have hne1 : ¬((c2 :: d :: y).take 1 = ['n']
              ∧ boundary ((c2 :: d :: y).drop 1) = true) := by
            rintro ⟨htake, _⟩
            simp only [List.take_succ_cons, List.take_zero] at htake
            rw [List.cons.injEq] at htake
            exact hcn htake.1
          have hne2 : ¬(([c2] : List Char).take 1 = ['n']
              ∧ boundary (([c2] : List Char).drop 1) = true) := by
            rintro ⟨htake, _⟩
            simp only [List.take_succ_cons, List.take_zero] at htake
            rw [List.cons.injEq] at htake
            exact hcn htake.1
          have h1 : artMatch ('a' :: c2 :: d :: y) = none := by
            rw [artMatch_cons, if_pos rfl, if_neg (by rw [hbf]; simp), if_neg hne1]
          have h2 : artMatch ['a', c2] = none := by
            rw [artMatch_cons, if_pos rfl, if_neg (by rw [hbf']; simp), if_neg hne2]
          rw [h1, h2]
      · rw [Bool.not_eq_true] at hw2
        have hbt : boundary (c2 :: d :: y) = true := by rw [boundary_cons, hw2]; rfl
        have hbt' : boundary [c2] = true := by rw [boundary_cons, hw2]; rfl
        have h1 : artMatch ('a' :: c2 :: d :: y) = some (c2 :: d :: y) := by
          rw [artMatch_cons, if_pos rfl, if_pos hbt]
        have h2 : artMatch ['a', c2] = some [c2] := by
          rw [artMatch_cons, if_pos rfl, if_pos hbt']
        rw [h1, h2]
        rfl
    · by_cases hct : c1 = 't'
      · subst hct
        have hc1 : ¬((c2 :: d :: y).take 2 = ['h', 'e']
            ∧ boundary ((c2 :: d :: y).drop 2) = true) := by
          rintro ⟨htake, _⟩
          simp only [List.take_succ_cons, List.take_zero] at htake
          rw [List.cons.injEq] at htake
          rcases htake with ⟨_, htake2⟩
          rw [List.cons.injEq] at htake2
          exact hde htake2.1
        have hc2 : ¬(([c2] : List Char).take 2 = ['h', 'e']
            ∧ boundary (([c2] : List Char).drop 2) = true) := by
          rintro ⟨htake, _⟩
          simp at htake
        have h1 : artMatch ('t' :: c2 :: d :: y) = none := by
          rw [artMatch_cons, if_neg (by decide), if_pos rfl, if_neg hc1]
        have h2 : artMatch ['t', c2] = none := by
          rw [artMatch_cons, if_neg (by decide), if_pos rfl, if_neg hc2]
        rw [h1, h2]
      · rw [artMatch_not_at hca hct, artMatch_not_at hca hct]
  | c1 :: c2 :: c3 :: u' =>
    rw [List.cons_append, List.cons_append, List.cons_append]
    have e1 : boundary (c2 :: c3 :: (u' ++ d :: y)) = boundary (c2 :: c3 :: u') := by
      rw [boundary_cons, boundary_cons]
    have e2 : (c2 :: c3 :: (u' ++ d :: y)).take 1 = (c2 :: c3 :: u').take 1 := by simp
    have e3 : boundary ((c2 :: c3 :: (u' ++ d :: y)).drop 1)
        = boundary ((c2 :: c3 :: u').drop 1) := by
      simp only [List.drop_succ_cons, List.drop_zero]
      rw [boundary_cons, boundary_cons]
    have e4 : (c2 :: c3 :: (u' ++ d :: y)).take 2 = (c2 :: c3 :: u').take 2 := by simp
    have e5 : boundary ((c2 :: c3 :: (u' ++ d :: y)).drop 2)
        = boundary ((c2 :: c3 :: u').drop 2) := by
      simp only [List.drop_succ_cons, List.drop_zero]
      cases u' with
      | nil =>
        rw [List.nil_append, hbd y]
        rfl
      | cons c4 u2 =>
        rw [List.cons_append, boundary_cons, boundary_cons]
    by_cases hca : c1 = 'a'
    · subst hca
      by_cases hb : boundary (c2 :: c3 :: u') = true
      · have h1 : artMatch ('a' :: c2 :: c3 :: (u' ++ d :: y))
            = some (c2 :: c3 :: (u' ++ d :: y)) := by
          rw [artMatch_cons, if_pos rfl, if_pos (by rw [e1, hb])]
        have h2 : artMatch ('a' :: c2 :: c3 :: u') = some (c2 :: c3 :: u') := by
          rw [artMatch_cons, if_pos rfl, if_pos hb]
        rw [h1, h2]
        rfl
      · by_cases hc : (c2 :: c3 :: u').take 1 = ['n']
            ∧ boundary ((c2 :: c3 :: u').drop 1) = true
        · have h1 : artMatch ('a' :: c2 :: c3 :: (u' ++ d :: y))
              = some ((c2 :: c3 :: (u' ++ d :: y)).drop 1) := by
            rw [artMatch_cons, if_pos rfl, if_neg (by rw [e1]; exact hb),
              if_pos ⟨by rw [e2]; exact hc.1, by rw [e3]; exact hc.2⟩]
          have h2 : artMatch ('a' :: c2 :: c3 :: u') = some ((c2 :: c3 :: u').drop 1) := by
            rw [artMatch_cons, if_pos rfl, if_neg hb, if_pos hc]
          rw [h1, h2]
          rfl
        · have h1 : artMatch ('a' :: c2 :: c3 :: (u' ++ d :: y)) = none := by
            rw [artMatch_cons, if_pos rfl, if_neg (by rw [e1]; exact hb),
              if_neg (by rw [e2, e3]; exact hc)]
          have h2 : artMatch ('a' :: c2 :: c3 :: u') = none := by
            rw [artMatch_cons, if_pos rfl, if_neg hb, if_neg hc]
          rw [h1, h2]
    · by_cases hct : c1 = 't'
      · subst hct
        by_cases hc : (c2 :: c3 :: u').take 2 = ['h', 'e']
            ∧ boundary ((c2 :: c3 :: u').drop 2) = true
        · have h1 : artMatch ('t' :: c2 :: c3 :: (u' ++ d :: y))
              = some ((c2 :: c3 :: (u' ++ d :: y)).drop 2) := by
            rw [artMatch_cons, if_neg (by decide), if_pos rfl,
              if_pos ⟨by rw [e4]; exact hc.1, by rw [e5]; exact hc.2⟩]
          have h2 : artMatch ('t' :: c2 :: c3 :: u') = some ((c2 :: c3 :: u').drop 2) := by
            rw [artMatch_cons, if_neg (by decide), if_pos rfl, if_pos hc]
          rw [h1, h2]
          rfl
        · have h1 : artMatch ('t' :: c2 :: c3 :: (u' ++ d :: y)) = none := by
            rw [artMatch_cons, if_neg (by decide), if_pos rfl,
              if_neg (by rw [e4, e5]; exact hc)]
          have h2 : artMatch ('t' :: c2 :: c3 :: u') = none := by
            rw [artMatch_cons, if_neg (by decide), if_pos rfl, if_neg hc]
          rw [h1, h2]
      · rw [artMatch_not_at hca hct, artMatch_not_at hca hct]

lemma artMatch_append_nonword2 (u : List Char) {d d' : Char} (hd : isW d = false)
    (hd' : isW d' = false) (y y' : List Char) :
    (artMatch (u ++ d :: y)).isNone = (artMatch (u ++ d' :: y')).isNone := by
  rw [artMatch_append_nonword u hd y, artMatch_append_nonword u hd' y']

lemma artFree_cons (p : Bool) (c : Char) (cs : List Char) :
    artFree p (c :: cs) = ((p || (artMatch (c :: cs)).isNone) && artFree (isW c) cs) := rfl

/-- The wordness of the last character of `u`, or `p` when `u` is empty. -/
def lastW (p : Bool) (u : List Char) : Bool := u.foldl (fun _ c => isW c) p

lemma lastW_cons (p : Bool) (c : Char) (u : List Char) :
    lastW p (c :: u) = lastW (isW c) u := rfl

lemma lastW_append_single (p : Bool) (u : List Char) (d : Char) :
    lastW p (u ++ [d]) = isW d := by
  rw [lastW, List.foldl_append]
  rfl

lemma artFree_suffix : ∀ (u : List Char) (p : Bool) (v : List Char),
    artFree p (u ++ v) = true → artFree (lastW p u) v = true := by
  intro u
  induction u with
  | nil => intro p v h; exact h
  | cons c u' ih =>
    intro p v h
    rw [List.cons_append, artFree_cons, Bool.and_eq_true] at h
    rw [lastW_cons]
    exact ih (isW c) v h.2

lemma artFree_append_replace :
    ∀ (w : List Char) (p : Bool) (d d' : Char) (y y' : List Char),
      isW d = false → isW d' = false →
      artFree p (w ++ d :: y) = true → artFree false y' = true →
      artFree p (w ++ d' :: y') = true := by
  intro w
  induction w with
  | nil =>
    intro p d d' y y' _ hd' _ hy'
    rw [List.nil_append, artFree_cons, Bool.and_eq_true]
    refine ⟨?_, ?_⟩
    · rw [artMatch_not_word hd']
      simp
    · rw [hd']
      exact hy'
  | cons c w' ih =>
    intro p d d' y y' hd hd' h hy'
    rw [List.cons_append, artFree_cons, Bool.and_eq_true] at h
    rw [List.cons_append, artFree_cons, Bool.and_eq_true]
    refine ⟨?_, ih (isW c) d d' y y' hd hd' h.2 hy'⟩
    rcases Bool.or_eq_true_iff.mp h.1 with h1 | h1
    · simp [h1]
    · have heq := artMatch_append_nonword2 (c :: w') hd hd' y y'
      rw [List.cons_append, List.cons_append] at heq
      rw [heq] at h1
      simp [h1]

lemma artFree_append_drop :
    ∀ (w : List Char) (p : Bool) (d : Char) (y : List Char),
      isW d = false → artFree p (w ++ d :: y) = true → artFree p w = true := by
  intro w
  induction w with
  | nil => intro p d y _ _; rfl
  | cons c w' ih =>
    intro p d y hd h
    rw [List.cons_append, artFree_cons, Bool.and_eq_true] at h
    rw [artFree_cons, Bool.and_eq_true]
    refine ⟨?_, ih (isW c) d y hd h.2⟩
    rcases Bool.or_eq_true_iff.mp h.1 with h1 | h1
    · simp [h1]
    · have heq := artMatch_append_nonword (c :: w') hd y
      rw [List.cons_append] at heq
      rw [heq] at h1
      simp [h1]

lemma boundary_removeArticlesAux_true (z : List Char) :
    boundary (removeArticlesAux true z) = boundary z := by
  cases z with
  | nil => rfl
  | cons e z' => rw [removeArticlesAux_true, boundary_cons, boundary_cons]

/-- A failed article match stays failed after the scanner rewrites the tail
(the scanner never creates a new article starting at an old non-match). -/
lemma artMatch_none_removeArticles (c : Char) (cs : List Char)
    (h : artMatch (c :: cs) = none) :
    artMatch (c :: removeArticlesAux (isW c) cs) = none := by
  by_cases hca : c = 'a'
  · subst hca
    rw [isW_a]
    cases cs with
    | nil => exact h
    | cons c2 cs2 =>
      rw [removeArticlesAux_true]
      rw [artMatch_cons, if_pos rfl] at h
      have hb : boundary (c2 :: cs2) = false := by
        by_contra hbc
        rw [Bool.not_eq_false] at hbc
        rw [if_pos hbc] at h
        simp at h
      rw [if_neg (by rw [hb]; simp)] at h
      have hcond : ¬((c2 :: cs2).take 1 = ['n'] ∧ boundary ((c2 :: cs2).drop 1) = true) := by
        intro hc
        rw [if_pos hc] at h
        simp at h
      have hw2 : isW c2 = true := by
        rw [boundary_cons] at hb
        simpa using hb
      rw [artMatch_cons, if_pos rfl, if_neg (by rw [boundary_cons, hw2]; simp)]
      rw [if_neg ?hq]
      case hq =>
        rintro ⟨htake, hbq⟩
        simp only [List.take_succ_cons, List.take_zero] at htake
        simp only [List.drop_succ_cons, List.drop_zero] at hbq
        apply hcond
        refine ⟨by simpa using htake, ?_⟩
        simp only [List.drop_succ_cons, List.drop_zero]
        rw [List.cons.injEq] at htake
        rcases htake with ⟨hn, _⟩
        subst hn
        rw [hw2] at hbq
        rw [boundary_removeArticlesAux_true] at hbq
        exact hbq
  · by_cases hct : c = 't'
    · subst hct
      rw [isW_t]
      cases cs with
      | nil => exact h
      | cons x xs =>
        rw [removeArticlesAux_true]
        rw [artMatch_cons, if_neg (by decide), if_pos rfl] at h
        have hcond : ¬((x :: xs).take 2 = ['h', 'e'] ∧ boundary ((x :: xs).drop 2) = true) := by
          intro hc
          rw [if_pos hc] at h
          simp at h
        rw [artMatch_cons, if_neg (by decide), if_pos rfl, if_neg ?hq]
        case hq =>
          rintro ⟨htake, hbq⟩
          apply hcond
          cases xs with
          | nil =>
            exfalso
            have : removeArticlesAux (isW x) [] = [] := by
              cases hw : isW x <;> rfl
            rw [this] at htake
            simp at htake
          | cons x2 xs2 =>
            simp only [List.take_succ_cons] at htake
            rw [List.cons.injEq] at htake
            rcases htake with ⟨hx, htake2⟩
            subst hx
            have hwx : isW 'h' = true := by decide
            rw [hwx, removeArticlesAux_true] at htake2 hbq
            simp only [List.take_succ_cons, List.take_zero] at htake2
            rw [List.cons.injEq] at htake2
            rcases htake2 with ⟨hx2, _⟩
            subst hx2
            have hwe : isW 'e' = true := by decide
            refine ⟨by simp, ?_⟩
            simp only [List.drop_succ_cons, List.drop_zero] at hbq ⊢
            rw [hwe] at hbq
            rw [← boundary_removeArticlesAux_true xs2]
            exact hbq
    · exact artMatch_not_at hca hct _

/-- The scanner output is article-free: `remove_articles` leaves no whole-word
article behind. -/
lemma artFree_removeArticlesAux :
    ∀ (n : ℕ) (l : List Char), l.length ≤ n → ∀ p : Bool,
      artFree p (removeArticlesAux p l) = true := by
  intro n
  induction n with
  | zero =>
    intro l h p
    have hl : l = [] := by
      cases l
      · rfl
      · simp at h
    subst hl
    rfl
  | succ n ih =>
    intro l h p
    cases l with
    | nil => rfl
    | cons c cs =>
      have hcs : cs.length ≤ n := by
        simp only [List.length_cons] at h
        omega
      by_cases hp : p
      · subst hp
        rw [removeArticlesAux_true, artFree_cons, Bool.and_eq_true]
        exact ⟨by simp, ih cs hcs (isW c)⟩
      · rw [Bool.not_eq_true] at hp
        subst hp
        cases hart : artMatch (c :: cs) with
        | none =>
          rw [removeArticlesAux_none c cs hart, artFree_cons, Bool.and_eq_true]
          refine ⟨?_, ih cs hcs (isW c)⟩
          rw [artMatch_none_removeArticles c cs hart]
          simp
        | some rest =>
          have hlen : rest.length ≤ n := by
            have := artMatch_length _ _ hart
            simp only [List.length_cons] at this
            omega
          rw [removeArticlesAux_some c cs rest hart, artFree_cons, Bool.and_eq_true]
          have hws : isW ' ' = false := by decide
          refine ⟨?_, ?_⟩
          · rw [artMatch_not_word hws]
            simp
          · rw [hws]
            have h1 := ih rest hlen true
            have hb := artMatch_some_boundary hart
            cases hrest : rest with
            | nil => rfl
            | cons e rest' =>
              rw [hrest] at h1 hb
              rw [removeArticlesAux_true] at h1 ⊢
              rw [artFree_cons, Bool.and_eq_true] at h1 ⊢
              refine ⟨?_, h1.2⟩
              have hisw : isW e = false := by
                rw [boundary_cons] at hb
                simpa using hb
              rw [artMatch_not_word hisw]
              simp

lemma isW_of_ws {c : Char} (h : c.isWhitespace = true) : isW c = false := by
  rw [Char.isWhitespace] at h
  rcases Bool.or_eq_true_iff.mp h with h1 | h1
  · rcases Bool.or_eq_true_iff.mp h1 with h2 | h2
    · rcases Bool.or_eq_true_iff.mp h2 with h3 | h3
      · rw [decide_eq_true_eq] at h3; subst h3; decide
      · rw [decide_eq_true_eq] at h3; subst h3; decide
    · rw [decide_eq_true_eq] at h2; subst h2; decide
  · rw [decide_eq_true_eq] at h1; subst h1; decide

lemma pySplitGo_cons (cur : List Char) (c : Char) (cs : List Char) :
    pySplitGo cur (c :: cs)
      = if c.isWhitespace then
          (if cur.isEmpty then pySplitGo [] cs else cur :: pySplitGo [] cs)
        else pySplitGo (cur ++ [c]) cs := rfl

/-- Splitting on whitespace and re-joining with single spaces preserves
article-freeness: word-character runs are preserved exactly. -/
lemma artFree_joinSpace_pySplitGo :
    ∀ (s cur : List Char) (p : Bool),
      artFree p (cur ++ s) = true →
      artFree p (joinSpace (pySplitGo cur s)) = true := by
  intro s
  induction s with
  | nil =>
    intro cur p h
    rw [List.append_nil] at h
    cases cur with
    | nil => rfl
    | cons a as => exact h
  | cons c s' ih =>
    intro cur p h
    by_cases hws : c.isWhitespace
    · have hfs' : artFree false s' = true := by
        have h2 : artFree p ((cur ++ [c]) ++ s') = true := by
          simpa [List.append_assoc] using h
        have h3 := artFree_suffix (cur ++ [c]) p s' h2
        rw [lastW_append_single, isW_of_ws hws] at h3
        exact h3
      rw [pySplitGo_cons, if_pos hws]
      cases cur with
      | nil =>
        rw [if_pos (show ([] : List Char).isEmpty = true from rfl)]
        exact artFree_mono (ih [] false (by simpa using hfs')) p
      | cons a as =>
        rw [if_neg (by simp)]
        cases hsp : pySplitGo [] s' with
        | nil =>
          exact artFree_append_drop (a :: as) p c s' (isW_of_ws hws) h
        | cons w2 ws2 =>
          have hj : artFree false (joinSpace (w2 :: ws2)) = true := by
            have h4 := ih [] false (by simpa using hfs')
            rw [hsp] at h4
            exact h4
          exact artFree_append_replace (a :: as) p c ' ' s' (joinSpace (w2 :: ws2))
            (isW_of_ws hws) (by decide) h hj
    · rw [pySplitGo_cons, if_neg hws]
      apply ih (cur ++ [c]) p
      simpa [List.append_assoc] using h

/-- The output of `white_space_fix` on an article-free text is article-free. -/
lemma artFree_whiteSpaceFix {l : List Char} (h : artFree false l = true) :
    artFree false (whiteSpaceFix l) = true :=
  artFree_joinSpace_pySplitGo l [] false (by simpa using h)

lemma pySplitGo_members :
    ∀ (s cur : List Char), (∀ x ∈ cur, x.isWhitespace = false) →
      ∀ w ∈ pySplitGo cur s, w ≠ [] ∧ ∀ x ∈ w, x.isWhitespace = false := by
  intro s
  induction s with
  | nil =>
    intro cur hcur w hw
    cases cur with
    | nil => simp [pySplitGo] at hw
    | cons a as =>
      have hwa : w = a :: as := by
        have : pySplitGo (a :: as) ([] : List Char) = [a :: as] := rfl
        rw [this] at hw
        simpa using hw
      subst hwa
      exact ⟨by simp, hcur⟩
  | cons c s' ih =>
    intro cur hcur w hw
    rw [pySplitGo_cons] at hw
    by_cases hws : c.isWhitespace
    · rw [if_pos hws] at hw
      cases cur with
      | nil =>
        rw [if_pos (show ([] : List Char).isEmpty = true from rfl)] at hw
        exact ih [] (by simp) w hw
      | cons a as =>
        rw [if_neg (by simp)] at hw
        rcases List.mem_cons.mp hw with rfl | hw2
        · exact ⟨by simp, hcur⟩
        · exact ih [] (by simp) w hw2
    · rw [if_neg hws] at hw
      rw [Bool.not_eq_true] at hws
      refine ih (cur ++ [c]) ?_ w hw
      intro x hx
      rcases List.mem_append.mp hx with h1 | h1
      · exact hcur x h1
      · rw [List.mem_singleton] at h1
        subst h1
        exact hws

lemma pySplitGo_append_word :
    ∀ (w : List Char), (∀ x ∈ w, x.isWhitespace = false) →
      ∀ (cur r : List Char), pySplitGo cur (w ++ r) = pySplitGo (cur ++ w) r := by
  intro w
  induction w with
  | nil => intro _ cur r; simp
  | cons x w' ih =>
    intro hw cur r
    have hx : x.isWhitespace = false := hw x (List.mem_cons_self x w')
    rw [List.cons_append, pySplitGo_cons, if_neg (by simp [hx])]
    rw [ih (fun y hy => hw y (List.mem_cons_of_mem _ hy)) (cur ++ [x]) r]
    congr 1
    simp

lemma joinSpace_cons_cons (w v : List Char) (vs : List (List Char)) :
    joinSpace (w :: v :: vs) = w ++ ' ' :: joinSpace (v :: vs) := rfl

lemma pySplit_joinSpace :
    ∀ (wl : List (List Char)),
      (∀ w ∈ wl, w ≠ [] ∧ ∀ x ∈ w, x.isWhitespace = false) →
      pySplit (joinSpace wl) = wl := by
  intro wl
  induction wl with
  | nil => intro _; rfl
  | cons w ws ih =>
    intro hgood
    have hw := hgood w (List.mem_cons_self w ws)
    cases ws with
    | nil =>
      show pySplitGo [] (joinSpace [w]) = [w]
      rw [show joinSpace [w] = w from rfl]
      have h1 : pySplitGo ([] : List Char) (w ++ []) = pySplitGo ([] ++ w) [] :=
        pySplitGo_append_word w hw.2 [] []
      rw [List.append_nil, List.nil_append] at h1
      rw [h1]
      cases w with
      | nil => exact absurd rfl hw.1
      | cons a as => rfl
    | cons v vs =>
      show pySplitGo [] (joinSpace (w :: v :: vs)) = w :: v :: vs
      rw [joinSpace_cons_cons]
      have h1 := pySplitGo_append_word w hw.2 [] (' ' :: joinSpace (v :: vs))
      rw [List.nil_append] at h1
      rw [h1, pySplitGo_cons, if_pos (show (' ').isWhitespace = true by decide)]
      have hwne : w.isEmpty = false := by
        cases w with
        | nil => exact absurd rfl hw.1
        | cons a as => rfl
      rw [if_neg (by simp [hwne])]
      congr 1
      exact ih (fun u hu => hgood u (List.mem_cons_of_mem _ hu))

lemma whiteSpaceFix_idem (l : List Char) :
    whiteSpaceFix (whiteSpaceFix l) = whiteSpaceFix l := by
  rw [whiteSpaceFix, whiteSpaceFix]
  rw [pySplit_joinSpace (pySplit l) (pySplitGo_members l [] (by simp))]

lemma dropWhile_eq_self_all {z : List Char} (h : ∀ x ∈ z, x.isWhitespace = false) :
    z.dropWhile Char.isWhitespace = z := by
  cases z with
  | nil => rfl
  | cons c zs =>
    rw [List.dropWhile_cons, if_neg (by simp [h c (List.mem_cons_self c zs)])]

lemma dropWhile_head_false {c : Char} {zs : List Char}
    (h : (c :: zs).dropWhile Char.isWhitespace = c :: zs) : c.isWhitespace = false := by
  by_contra hc
  rw [Bool.not_eq_false] at hc
  rw [List.dropWhile_cons, if_pos (by simp [hc])] at h
  have hlen := congrArg List.length h
  have hle := (List.dropWhile_sublist (l := zs) Char.isWhitespace).length_le
  simp only [List.length_cons] at hlen
  omega

lemma joinSpace_ne_nil (w : List Char) (ws : List (List Char)) (hw : w ≠ []) :
    joinSpace (w :: ws) ≠ [] := by
  cases ws with
  | nil => exact hw
  | cons v vs =>
    rw [joinSpace_cons_cons]
    simp

lemma joinSpace_rev_dropWhile :
    ∀ (wl : List (List Char)),
      (∀ w ∈ wl, w ≠ [] ∧ ∀ x ∈ w, x.isWhitespace = false) →
      (joinSpace wl).reverse.dropWhile Char.isWhitespace = (joinSpace wl).reverse := by
  intro wl
  induction wl with
  | nil => intro _; rfl
  | cons w ws ih =>
    intro hgood
    have hw := hgood w (List.mem_cons_self w ws)
    cases ws with
    | nil =>
      apply dropWhile_eq_self_all
      intro x hx
      rw [List.mem_reverse] at hx
      exact hw.2 x hx
    | cons v vs =>
      have hgood' : ∀ u ∈ v :: vs, u ≠ [] ∧ ∀ x ∈ u, x.isWhitespace = false :=
        fun u hu => hgood u (List.mem_cons_of_mem _ hu)
      have hJ := ih hgood'
      have hJne : joinSpace (v :: vs) ≠ [] :=
        joinSpace_ne_nil v vs (hgood' v (List.mem_cons_self v vs)).1
      rw [joinSpace_cons_cons, List.reverse_append, List.reverse_cons]
      cases hrev : (joinSpace (v :: vs)).reverse with
      | nil =>
        exfalso
        apply hJne
        have := congrArg List.reverse hrev
        simpa using this
      | cons j0 js =>
        rw [hrev] at hJ
        have hj0 : j0.isWhitespace = false := dropWhile_head_false hJ
        rw [List.cons_append, List.cons_append, List.dropWhile_cons, if_neg (by simp [hj0])]

lemma pyStrip_whiteSpaceFix (l : List Char) : pyStrip (whiteSpaceFix l) = whiteSpaceFix l := by
  have hgood := pySplitGo_members l [] (by simp)
  rw [pyStrip]
  have h1 : (whiteSpaceFix l).dropWhile Char.isWhitespace = whiteSpaceFix l := by
    rw [whiteSpaceFix]
    cases hsp : pySplit l with
    | nil => rfl
    | cons w ws =>
      have hw : w ≠ [] ∧ ∀ x ∈ w, x.isWhitespace = false := by
        apply hgood
        show w ∈ pySplitGo [] l
        rw [show pySplitGo ([] : List Char) l = pySplit l from rfl, hsp]
        exact List.mem_cons_self w ws
      cases ws with
      | nil =>
        apply dropWhile_eq_self_all
        intro x hx
        rw [show joinSpace [w] = w from rfl] at hx
        exact hw.2 x hx
      | cons v vs =>
        rw [joinSpace_cons_cons]
        cases w with
        | nil => exact absurd rfl hw.1
        | cons a as =>
          rw [List.cons_append, List.dropWhile_cons,
            if_neg (by simp [hw.2 a (List.mem_cons_self a as)])]
  have h2 : (whiteSpaceFix l).reverse.dropWhile Char.isWhitespace
      = (whiteSpaceFix l).reverse := by
    rw [whiteSpaceFix]
    apply joinSpace_rev_dropWhile
    intro u hu
    apply hgood
    exact hu
  rw [h1, h2, List.reverse_reverse]

lemma artMatch_some_subset {c : Char} {cs rest : List Char}
    (h : artMatch (c :: cs) = some rest) : ∀ x ∈ rest, x ∈ cs := by
  rw [artMatch_cons] at h
  split at h
  · split at h
    · rw [Option.some.injEq] at h
      subst h
      exact fun x hx => hx
    · split at h
      · rw [Option.some.injEq] at h
        subst h
        exact fun x hx => List.drop_subset _ _ hx
      · simp at h
  · split at h
    · split at h
      · rw [Option.some.injEq] at h
        subst h
        exact fun x hx => List.drop_subset _ _ hx
      · simp at h
    · simp at h

lemma removeArticlesFuel_chars :
    ∀ (fuel : ℕ) (p : Bool) (l : List Char) (c : Char),
      c ∈ removeArticlesFuel fuel p l → c = ' ' ∨ c ∈ l := by
  intro fuel
  induction fuel with
  | zero => intro p l c h; exact Or.inr h
  | succ f ih =>
    intro p l c h
    cases l with
    | nil => simp [removeArticlesFuel] at h
    | cons d cs =>
      rw [removeArticlesFuel] at h
      by_cases hp : p
      · rw [if_pos hp] at h
        rcases List.mem_cons.mp h with rfl | h2
        · exact Or.inr (List.mem_cons_self _ _)
        · rcases ih (isW d) cs c h2 with h3 | h3
          · exact Or.inl h3
          · exact Or.inr (List.mem_cons_of_mem _ h3)
      · rw [if_neg hp] at h
        cases hart : artMatch (d :: cs) with
        | none =>
          rw [hart] at h
          dsimp only at h
          rcases List.mem_cons.mp h with rfl | h2
          · exact Or.inr (List.mem_cons_self _ _)
          · rcases ih (isW d) cs c h2 with h3 | h3
            · exact Or.inl h3
            · exact Or.inr (List.mem_cons_of_mem _ h3)
        | some rest =>
          rw [hart] at h
          dsimp only at h
          rcases List.mem_cons.mp h with rfl | h2
          · exact Or.inl rfl
          · rcases ih true rest c h2 with h3 | h3
            · exact Or.inl h3
            · exact Or.inr (List.mem_cons_of_mem _ (artMatch_some_subset hart c h3))

lemma removeArticles_chars {l : List Char} {c : Char}
    (h : c ∈ removeArticles l) : c = ' ' ∨ c ∈ l :=
  removeArticlesFuel_chars l.length false l c h

lemma pySplitGo_chars :
    ∀ (s cur : List Char) (w : List Char), w ∈ pySplitGo cur s →
      ∀ x ∈ w, x ∈ cur ∨ x ∈ s := by
  intro s
  induction s with
  | nil =>
    intro cur w hw x hx
    cases cur with
    | nil => simp [pySplitGo] at hw
    | cons a as =>
      have hwa : w = a :: as := by
        have he : pySplitGo (a :: as) ([] : List Char) = [a :: as] := rfl
        rw [he] at hw
        simpa using hw
      subst hwa
      exact Or.inl hx
  | cons c s' ih =>
    intro cur w hw x hx
    rw [pySplitGo_cons] at hw
    by_cases hws : c.isWhitespace
    · rw [if_pos hws] at hw
      cases cur with
      | nil =>
        rw [if_pos (show ([] : List Char).isEmpty = true from rfl)] at hw
        rcases ih [] w hw x hx with h1 | h1
        · simp at h1
        · exact Or.inr (List.mem_cons_of_mem _ h1)
      | cons a as =>
        rw [if_neg (by simp)] at hw
        rcases List.mem_cons.mp hw with rfl | hw2
        · exact Or.inl hx
        · rcases ih [] w hw2 x hx with h1 | h1
          · simp at h1
          · exact Or.inr (List.mem_cons_of_mem _ h1)
    · rw [if_neg hws] at hw
      rcases ih (cur ++ [c]) w hw x hx with h1 | h1
      · rcases List.mem_append.mp h1 with h2 | h2
        · exact Or.inl h2
        · rw [List.mem_singleton] at h2
          subst h2
          exact Or.inr (List.mem_cons_self _ _)
      · exact Or.inr (List.mem_cons_of_mem _ h1)

lemma joinSpace_chars :
    ∀ (wl : List (List Char)) (x : Char), x ∈ joinSpace wl → x = ' ' ∨ ∃ w ∈ wl, x ∈ w := by
  intro wl
  induction wl with
  | nil => intro x hx; simp [joinSpace] at hx
  | cons w ws ih =>
    intro x hx
    cases ws with
    | nil =>
      refine Or.inr ⟨w, List.mem_cons_self _ _, ?_⟩
      rw [show joinSpace [w] = w from rfl] at hx
      exact hx
    | cons v vs =>
      rw [joinSpace_cons_cons] at hx
      rcases List.mem_append.mp hx with h1 | h1
      · exact Or.inr ⟨w, List.mem_cons_self _ _, h1⟩
      · rcases List.mem_cons.mp h1 with rfl | h2
        · exact Or.inl rfl
        · rcases ih x h2 with h3 | ⟨u, hu, hxu⟩
          · exact Or.inl h3
          · exact Or.inr ⟨u, List.mem_cons_of_mem _ hu, hxu⟩

lemma whiteSpaceFix_chars {l : List Char} {x : Char} (h : x ∈ whiteSpaceFix l) :
    x = ' ' ∨ x ∈ l := by
  rw [whiteSpaceFix] at h
  rcases joinSpace_chars _ x h with h1 | ⟨w, hw, hxw⟩
  · exact Or.inl h1
  · rcases pySplitGo_chars l [] w hw x hxw with h2 | h2
    · simp at h2
    · exact Or.inr h2

lemma map_eq_self_of_mem {f : Char → Char} :
    ∀ {l : List Char}, (∀ c ∈ l, f c = c) → l.map f = l := by
  intro l
  induction l with
  | nil => intro _; rfl
  | cons c cs ih =>
    intro h
    rw [List.map_cons, h c (List.mem_cons_self _ _),
      ih (fun d hd => h d (List.mem_cons_of_mem _ hd))]

/-- C10: `InContextLearningQAAccuracy.normalize_answer` is idempotent: the
underscore replacement, lowercasing, punctuation-to-space conversion, article
removal and whitespace collapsing change nothing when applied a second
time. -/
theorem normalize_answer_idempotent (l : List Char) :
    normalize_answer (normalize_answer l) = normalize_answer l := by
  have hnostrip : ∀ m : List Char, normalize_answer m
      = whiteSpaceFix (removeArticles
          (((m.map replaceUnderscoreChar).map Char.toLower).map handlePuncChar)) := by
    intro m
    rw [normalize_answer, pyStrip_whiteSpaceFix]
  have hzchars : ∀ (m : List Char) (c : Char),
      c ∈ ((m.map replaceUnderscoreChar).map Char.toLower).map handlePuncChar →
      CharNorm c := by
    intro m c hc
    rcases List.mem_map.mp hc with ⟨b, hb, rfl⟩
    rcases List.mem_map.mp hb with ⟨a, ha, rfl⟩
    rcases List.mem_map.mp ha with ⟨c0, _, rfl⟩
    exact charNorm_stage c0
  have hN : normalize_answer l
      = whiteSpaceFix (removeArticles
          (((l.map replaceUnderscoreChar).map Char.toLower).map handlePuncChar)) :=
    hnostrip l
  have hchars : ∀ c ∈ normalize_answer l, CharNorm c := by
    intro c hc
    rw [hN] at hc
    rcases whiteSpaceFix_chars hc with rfl | hc2
    · exact charNorm_space
    · rcases removeArticles_chars hc2 with rfl | hc3
      · exact charNorm_space
      · exact hzchars l c hc3
  have hart : artFree false (normalize_answer l) = true := by
    rw [hN]
    apply artFree_whiteSpaceFix
    exact artFree_removeArticlesAux
      (((l.map replaceUnderscoreChar).map Char.toLower).map handlePuncChar).length
      (((l.map replaceUnderscoreChar).map Char.toLower).map handlePuncChar) (le_refl _) false
  have s1 : (normalize_answer l).map replaceUnderscoreChar = normalize_answer l :=
    map_eq_self_of_mem (fun c hc => by
      rw [replaceUnderscoreChar, if_neg (charNorm_not_underscore (hchars c hc))])
  have s2 : (normalize_answer l).map Char.toLower = normalize_answer l :=
    map_eq_self_of_mem (fun c hc => (hchars c hc).1)
  have s3 : (normalize_answer l).map handlePuncChar = normalize_answer l :=
    map_eq_self_of_mem (fun c hc => by
      rw [handlePuncChar, if_neg (by simp [(hchars c hc).2])])
  have s4 : removeArticles (normalize_answer l) = normalize_answer l :=
    artFree_removeArticlesAux_id (normalize_answer l) false hart
  have s5 : whiteSpaceFix (normalize_answer l) = normalize_answer l := by
    rw [hN, whiteSpaceFix_idem]
  rw [hnostrip (normalize_answer l), s1, s2, s3, s4, s5]

end ComposerNLP
